import Mathlib

/-!
Verification of the DAG operations module (`dag.rs`) of the claude-flow
repository: graph building, cycle detection, adjacency materialization,
readiness evaluation and level scheduling over bead dependency graphs.

The Rust code is shallowly embedded: each Rust function of `dag.rs` becomes a
Lean function over lists, with `HashMap`s refined by association lists (only
lookup, insertion and per-key append are used by the source) and `HashSet`s by
lists with decidable membership.
-/

/-- A bead node record. Modelled from the spec: the `BeadNode` struct lives in
the crate root (`lib.rs`), which is not among the provided sources; its fields
are those of the spec's data model, §3, and match every construction site in
the `dag.rs` tests (`id`, `title`, `status`, `priority`, `blocked_by`,
`blocks`, optional `duration`). Numeric fields are modelled by `Int`; no
algorithm of `dag.rs` reads `title`, `priority` or `duration`. -/
structure BeadNode where
  id : String
  title : String
  status : String
  priority : Int
  blocked_by : List String
  blocks : List String
  duration : Option Int
deriving Repr, DecidableEq

/-- The ids of the input records, in input order. -/
def beadIds (beads : List BeadNode) : List String :=
  beads.map (fun b => b.id)

/-! ## Readiness evaluator (`get_ready_beads_impl`, dag.rs lines 52-71)

The Rust code first collects the set of ids of beads whose `status` equals
`"closed"`, then keeps (in input order) every bead whose status is not
`"closed"` and whose every `blocked_by` entry lies in that set, and maps the
survivors to their ids. -/

/-- Ids of the records whose `status` is exactly `"closed"` (the `closed`
`HashSet` of the source, refined by a list searched with decidable
membership). -/
def closedIds (beads : List BeadNode) : List String :=
  (beads.filter (fun b => b.status == "closed")).map (fun b => b.id)

/-- Core of `get_ready_beads_impl` after decoding: the filter chain of
dag.rs lines 63-67. -/
def getReadyBeads (beads : List BeadNode) : List String :=
  (((beads.filter (fun b => !(b.status == "closed"))).filter
    (fun b => b.blocked_by.all (fun blocker => (closedIds beads).contains blocker))).map
      (fun b => b.id))

/-- The readiness condition exactly as the spec phrases it: status not
`"closed"`, and every blocker id is the id of some input record whose status
is `"closed"`. -/
def specReady (beads : List BeadNode) (b : BeadNode) : Prop :=
  b.status ≠ "closed" ∧
    ∀ d ∈ b.blocked_by, ∃ c ∈ beads, c.status = "closed" ∧ c.id = d

instance (beads : List BeadNode) (b : BeadNode) : Decidable (specReady beads b) := by
  unfold specReady; infer_instance

lemma mem_closedIds (beads : List BeadNode) (d : String) :
    d ∈ closedIds beads ↔ ∃ c ∈ beads, c.status = "closed" ∧ c.id = d := by
  simp only [closedIds, List.mem_map, List.mem_filter, beq_iff_eq]
  constructor
  · rintro ⟨c, ⟨hc, hst⟩, rfl⟩
    exact ⟨c, hc, hst, rfl⟩
  · rintro ⟨c, hc, hst, rfl⟩
    exact ⟨c, ⟨hc, hst⟩, rfl⟩

lemma readyFilter_eq_specReady (beads : List BeadNode) (b : BeadNode) :
    ((b.blocked_by.all (fun blocker => (closedIds beads).contains blocker)) &&
      !(b.status == "closed")) =
    decide (specReady beads b) := by
  rw [Bool.eq_iff_iff]
  simp only [Bool.and_eq_true, List.all_eq_true, List.contains, List.elem_eq_mem,
    decide_eq_true_eq, Bool.not_eq_true', beq_eq_false_iff_ne, specReady, mem_closedIds]
  tauto

/-! ## Adjacency materializer (`build_adjacency_impl`, dag.rs lines 32-49)

The Rust code folds over the records; for each record it first makes sure an
entry for its id exists (`adjacency.entry(id).or_insert_with(Vec::new)`),
then appends each member of the record's `blocks` list to that id's entry.
The `HashMap<String, Vec<String>>` is refined by an association list with
unique keys: the source only ever observes per-key contents of the map. -/

/-- `adjacency.entry(k).or_insert_with(Vec::new)`: ensure an entry for `k`
exists, with an empty vector as initial value. -/
def alEntry (m : List (String × List String)) (k : String) :
    List (String × List String) :=
  if m.any (fun e => e.1 == k) then m else m ++ [(k, [])]

/-- `adjacency.entry(k).or_insert_with(Vec::new).push(v)`: ensure the entry
for `k` exists and append `v` to its vector. -/
def alEntryPush (m : List (String × List String)) (k : String) (v : String) :
    List (String × List String) :=
  if m.any (fun e => e.1 == k) then
    m.map (fun e => if e.1 == k then (e.1, e.2 ++ [v]) else e)
  else m ++ [(k, [v])]

/-- Core of `build_adjacency_impl` after decoding (dag.rs lines 36-45). -/
def build_adjacency (beads : List BeadNode) : List (String × List String) :=
  beads.foldl
    (fun m b =>
      b.blocks.foldl (fun m' blocked => alEntryPush m' b.id blocked) (alEntry m b.id))
    []

lemma alEntryPush_fresh_key (acc : List (String × List String)) (k : String)
    (vs : List String) (x : String) (h : ∀ e ∈ acc, e.1 ≠ k) :
    alEntryPush (acc ++ [(k, vs)]) k x = acc ++ [(k, vs ++ [x])] := by
  have hcond : ((acc ++ [(k, vs)]).any (fun e => e.1 == k)) = true := by
    simp [List.any_append]
  unfold alEntryPush
  rw [if_pos hcond, List.map_append]
  congr 1
  · conv_rhs => rw [← List.map_id acc]
    apply List.map_congr_left
    intro e he
    have : (e.1 == k) = false := by
      simpa [beq_eq_false_iff_ne] using h e he
    simp [this]
  · simp

lemma alEntryPush_pushAll (xs : List String) (acc : List (String × List String))
    (k : String) (vs : List String) (h : ∀ e ∈ acc, e.1 ≠ k) :
    xs.foldl (fun m x => alEntryPush m k x) (acc ++ [(k, vs)]) =
      acc ++ [(k, vs ++ xs)] := by
  induction xs generalizing vs with
  | nil => simp
  | cons x xs ih =>
    rw [List.foldl_cons, alEntryPush_fresh_key acc k vs x h, ih (vs ++ [x])]
    simp

lemma alEntry_fresh (acc : List (String × List String)) (k : String)
    (h : ∀ e ∈ acc, e.1 ≠ k) : alEntry acc k = acc ++ [(k, [])] := by
  unfold alEntry
  rw [if_neg]
  simp only [List.any_eq_true, beq_iff_eq, not_exists, not_and]
  intro e he
  exact h e he

lemma build_adjacency_go (beads : List BeadNode) (acc : List (String × List String))
    (hdisj : ∀ b ∈ beads, ∀ e ∈ acc, e.1 ≠ b.id)
    (hnd : (beadIds beads).Nodup) :
    beads.foldl
      (fun m b =>
        b.blocks.foldl (fun m' blocked => alEntryPush m' b.id blocked) (alEntry m b.id))
      acc = acc ++ beads.map (fun b => (b.id, b.blocks)) := by
  induction beads generalizing acc with
  | nil => simp
  | cons b bs ih =>
    have hb : ∀ e ∈ acc, e.1 ≠ b.id :=
      fun e he => hdisj b (List.mem_cons_self b bs) e he
    have hcons : beadIds (b :: bs) = b.id :: beadIds bs := by simp [beadIds]
    have hnd2 : (b.id :: beadIds bs).Nodup := hcons ▸ hnd
    have hfresh : b.id ∉ beadIds bs := (List.nodup_cons.mp hnd2).1
    have hnd' : (beadIds bs).Nodup := (List.nodup_cons.mp hnd2).2
    rw [List.foldl_cons, alEntry_fresh acc b.id hb,
      alEntryPush_pushAll b.blocks acc b.id [] hb, List.nil_append,
      ih (acc ++ [(b.id, b.blocks)]) ?_ hnd']
    · simp
    · intro b' hb' e he
      rcases List.mem_append.mp he with h1 | h2
      · exact hdisj b' (List.mem_cons_of_mem b hb') e h1
      · have he2 : e = (b.id, b.blocks) := by simpa using h2
        subst he2
        intro hkeq
        apply hfresh
        have hkeq' : b.id = b'.id := hkeq
        rw [hkeq']
        simpa [beadIds] using List.mem_map_of_mem (fun x => x.id) hb'

lemma lookup_map_id_blocks (beads : List BeadNode) (hnd : (beadIds beads).Nodup)
    (b : BeadNode) (hb : b ∈ beads) :
    (beads.map (fun x => (x.id, x.blocks))).lookup b.id = some b.blocks := by
  induction beads with
  | nil => cases hb
  | cons c cs ih =>
    have hcons : beadIds (c :: cs) = c.id :: beadIds cs := by simp [beadIds]
    have hnd2 : (c.id :: beadIds cs).Nodup := hcons ▸ hnd
    rcases List.mem_cons.mp hb with rfl | hmem
    · simp [List.lookup]
    · have hfresh : c.id ∉ beadIds cs := (List.nodup_cons.mp hnd2).1
      have hmemid : b.id ∈ beadIds cs := by
        simpa [beadIds] using List.mem_map_of_mem (fun x => x.id) hmem
      have hne : (b.id == c.id) = false := by
        rw [beq_eq_false_iff_ne]
        intro hkeq
        exact hfresh (hkeq ▸ hmemid)
      have hnd' : (beadIds cs).Nodup := (List.nodup_cons.mp hnd2).2
      simpa [List.lookup, hne] using ih hnd' hmem

/-- C7: with distinct record ids (the data model, spec §3, declares `id`
unique within a snapshot), the adjacency mapping has exactly one entry per
input node id — indeed its entries are the input records in input order —
and the entry of each record maps its id to its `blocks` list verbatim
(hence to the empty list when `blocks` is empty). -/
theorem build_adjacency_spec (beads : List BeadNode)
    (hnd : (beadIds beads).Nodup) :
    build_adjacency beads = beads.map (fun b => (b.id, b.blocks)) ∧
    (build_adjacency beads).map Prod.fst = beadIds beads ∧
    ∀ b ∈ beads, (build_adjacency beads).lookup b.id = some b.blocks := by
  have hmain : build_adjacency beads = beads.map (fun b => (b.id, b.blocks)) := by
    unfold build_adjacency
    simpa using build_adjacency_go beads [] (by simp) hnd
  refine ⟨hmain, ?_, ?_⟩
  · rw [hmain]
    simp [beadIds, Function.comp]
  · intro b hb
    rw [hmain]
    exact lookup_map_id_blocks beads hnd b hb

/-- Sample input: a closed root `a`, an open `b` blocked by `a`, an open `c`
blocked by `b`; `a` blocks `b` and `b` blocks `c` (the shape used by the
`dag.rs` unit tests). -/
def sampleBeads : List BeadNode :=
  [⟨"a", "A", "closed", 0, [], ["b"], none⟩,
   ⟨"b", "B", "open", 0, ["a"], ["c"], none⟩,
   ⟨"c", "C", "open", 0, ["b"], [], none⟩]

/-- Witness for C7 at the sample input. -/
theorem build_adjacency_spec_witness :
    (beadIds sampleBeads).Nodup ∧
    (build_adjacency sampleBeads = sampleBeads.map (fun b => (b.id, b.blocks)) ∧
     (build_adjacency sampleBeads).map Prod.fst = beadIds sampleBeads ∧
     ∀ b ∈ sampleBeads, (build_adjacency sampleBeads).lookup b.id = some b.blocks) :=
  ⟨by decide, build_adjacency_spec sampleBeads (by decide)⟩

/-! ## Directed reachability and cycle existence over explicit edge lists

`petgraph::algo::is_cyclic_directed` is an external crate function; it is
modelled below by a saturation-based reachability computation over the edge
list, proved equivalent to the mathematical statement "some vertex lies on a
nonempty directed walk back to itself". -/

section ReachCycle

variable {α : Type} [DecidableEq α] {β : Type} [DecidableEq β]

/-- The step relation of an explicit edge list. -/
def edgeRel (E : List (α × α)) (a b : α) : Prop := (a, b) ∈ E

instance (E : List (α × α)) (a b : α) : Decidable (edgeRel E a b) := by
  unfold edgeRel; infer_instance

/-- All endpoints of the edges. -/
def epts (E : List (α × α)) : Finset α :=
  (E.map Prod.fst).toFinset ∪ (E.map Prod.snd).toFinset

/-- One-step successors of a vertex set. -/
def succsOf (E : List (α × α)) (S : Finset α) : Finset α :=
  ((E.filter (fun e => e.1 ∈ S)).map Prod.snd).toFinset

/-- One expansion step of forward reachability. -/
def stepR (E : List (α × α)) (S : Finset α) : Finset α := S ∪ succsOf E S

/-- Forward-reachable saturation: enough expansion steps to reach a fixpoint. -/
def reachSet (E : List (α × α)) (S : Finset α) : Finset α :=
  (stepR E)^[(epts E).card + 1] S

lemma mem_succsOf {E : List (α × α)} {S : Finset α} {x : α} :
    x ∈ succsOf E S ↔ ∃ a, (a, x) ∈ E ∧ a ∈ S := by
  simp only [succsOf, List.mem_toFinset, List.mem_map, List.mem_filter,
    decide_eq_true_eq]
  constructor
  · rintro ⟨⟨a, b⟩, ⟨hE, hS⟩, rfl⟩
    exact ⟨a, hE, hS⟩
  · rintro ⟨a, hE, hS⟩
    exact ⟨(a, x), ⟨hE, hS⟩, rfl⟩

lemma mem_epts_fst {E : List (α × α)} {a b : α} (h : (a, b) ∈ E) : a ∈ epts E := by
  simp only [epts, Finset.mem_union, List.mem_toFinset, List.mem_map]
  exact Or.inl ⟨(a, b), h, rfl⟩

lemma mem_epts_snd {E : List (α × α)} {a b : α} (h : (a, b) ∈ E) : b ∈ epts E := by
  simp only [epts, Finset.mem_union, List.mem_toFinset, List.mem_map]
  exact Or.inr ⟨(a, b), h, rfl⟩

lemma subset_stepR (E : List (α × α)) (S : Finset α) : S ⊆ stepR E S :=
  Finset.subset_union_left

lemma succsOf_subset_epts (E : List (α × α)) (S : Finset α) :
    succsOf E S ⊆ epts E := by
  intro x hx
  rcases mem_succsOf.mp hx with ⟨a, hE, _⟩
  exact mem_epts_snd hE

lemma iterate_stepR_subset_succ (E : List (α × α)) (S : Finset α) (k : Nat) :
    (stepR E)^[k] S ⊆ (stepR E)^[k + 1] S := by
  rw [Function.iterate_succ_apply']
  exact subset_stepR E _

lemma iterate_stepR_mono_steps (E : List (α × α)) (S : Finset α) {k m : Nat}
    (h : k ≤ m) : (stepR E)^[k] S ⊆ (stepR E)^[m] S := by
  induction m with
  | zero => simp [Nat.le_zero.mp h]
  | succ m ih =>
    rcases Nat.lt_or_ge k (m + 1) with hlt | hge
    · exact (ih (Nat.lt_succ_iff.mp hlt)).trans (iterate_stepR_subset_succ E S m)
    · have : k = m + 1 := Nat.le_antisymm h hge
      subst this
      exact subset_rfl

lemma iterate_stepR_subset_univ (E : List (α × α)) (S : Finset α) (k : Nat) :
    (stepR E)^[k] S ⊆ S ∪ epts E := by
  induction k with
  | zero => simp
  | succ k ih =>
    rw [Function.iterate_succ_apply']
    intro x hx
    rcases Finset.mem_union.mp hx with h1 | h2
    · exact ih h1
    · exact Finset.mem_union_right _ (succsOf_subset_epts E _ h2)

lemma stepR_fix_iterate (E : List (α × α)) {T : Finset α} (hfix : stepR E T = T) :
    ∀ m, (stepR E)^[m] T = T := by
  intro m
  induction m with
  | zero => rfl
  | succ m ih => rw [Function.iterate_succ_apply', ih, hfix]

lemma iterate_stepR_card_growth (E : List (α × α)) (S : Finset α) (m : Nat)
    (h : ∀ k < m, (stepR E)^[k + 1] S ≠ (stepR E)^[k] S) :
    S.card + m ≤ ((stepR E)^[m] S).card := by
  induction m with
  | zero => simp
  | succ m ih =>
    have hm : ∀ k < m, (stepR E)^[k + 1] S ≠ (stepR E)^[k] S :=
      fun k hk => h k (Nat.lt_succ_of_lt hk)
    have hlt : ((stepR E)^[m] S).card < ((stepR E)^[m + 1] S).card := by
      apply Finset.card_lt_card
      rw [Finset.ssubset_iff_subset_ne]
      exact ⟨iterate_stepR_subset_succ E S m, (h m (Nat.lt_succ_self m)).symm⟩
    have ihm := ih hm
    omega

lemma exists_stepR_fixpoint (E : List (α × α)) (S : Finset α) :
    ∃ k ≤ (epts E).card, stepR E ((stepR E)^[k] S) = (stepR E)^[k] S := by
  by_contra hcon
  push_neg at hcon
  have hne : ∀ k < (epts E).card + 1, (stepR E)^[k + 1] S ≠ (stepR E)^[k] S := by
    intro k hk
    have := hcon k (Nat.lt_succ_iff.mp hk)
    rw [Function.iterate_succ_apply']
    exact this
  have hgrow := iterate_stepR_card_growth E S ((epts E).card + 1) hne
  have hbound : (((stepR E)^[(epts E).card + 1]) S).card ≤ S.card + (epts E).card := by
    calc (((stepR E)^[(epts E).card + 1]) S).card
        ≤ (S ∪ epts E).card := Finset.card_le_card (iterate_stepR_subset_univ E S _)
      _ ≤ S.card + (epts E).card := Finset.card_union_le S (epts E)
  omega

lemma stepR_reachSet (E : List (α × α)) (S : Finset α) :
    stepR E (reachSet E S) = reachSet E S := by
  obtain ⟨k, hk, hfix⟩ := exists_stepR_fixpoint E S
  have heq : reachSet E S = (stepR E)^[k] S := by
    unfold reachSet
    have : (epts E).card + 1 = ((epts E).card + 1 - k) + k := by omega
    rw [this, Function.iterate_add_apply]
    exact stepR_fix_iterate E hfix _
  rw [heq, hfix]

lemma subset_reachSet (E : List (α × α)) (S : Finset α) : S ⊆ reachSet E S :=
  iterate_stepR_mono_steps E S (Nat.zero_le _)

lemma succsOf_reachSet_subset (E : List (α × α)) (S : Finset α) :
    succsOf E (reachSet E S) ⊆ reachSet E S := by
  intro x hx
  have : x ∈ stepR E (reachSet E S) := Finset.mem_union_right _ hx
  rwa [stepR_reachSet] at this

lemma reach_sound (E : List (α × α)) (S : Finset α) (k : Nat) :
    ∀ x ∈ (stepR E)^[k] S,
      x ∈ S ∨ ∃ y ∈ S, Relation.TransGen (edgeRel E) y x := by
  induction k with
  | zero => intro x hx; exact Or.inl hx
  | succ k ih =>
    intro x hx
    rw [Function.iterate_succ_apply'] at hx
    rcases Finset.mem_union.mp hx with h1 | h2
    · exact ih x h1
    · rcases mem_succsOf.mp h2 with ⟨a, hE, haS⟩
      rcases ih a haS with haS' | ⟨y, hy, hty⟩
      · exact Or.inr ⟨a, haS', Relation.TransGen.single hE⟩
      · exact Or.inr ⟨y, hy, hty.tail hE⟩

lemma reachSet_sound (E : List (α × α)) (S : Finset α) {x : α}
    (hx : x ∈ reachSet E S) :
    x ∈ S ∨ ∃ y ∈ S, Relation.TransGen (edgeRel E) y x :=
  reach_sound E S _ x hx

lemma reachSet_complete (E : List (α × α)) (S : Finset α) {y x : α}
    (h : Relation.ReflTransGen (edgeRel E) y x) (hy : y ∈ reachSet E S) :
    x ∈ reachSet E S := by
  induction h with
  | refl => exact hy
  | tail _ hbc ih =>
    exact succsOf_reachSet_subset E S (mem_succsOf.mpr ⟨_, hbc, ih⟩)

/-- Whether the edge list contains a directed cycle: some edge source reaches
itself through at least one step. -/
def hasCycleE (E : List (α × α)) : Bool :=
  (E.map Prod.fst).any (fun v => decide (v ∈ reachSet E (succsOf E {v})))

theorem hasCycleE_iff (E : List (α × α)) :
    hasCycleE E = true ↔ ∃ v, Relation.TransGen (edgeRel E) v v := by
  unfold hasCycleE
  rw [List.any_eq_true]
  constructor
  · rintro ⟨v, _, hv⟩
    rw [decide_eq_true_eq] at hv
    rcases reachSet_sound E _ hv with h1 | ⟨y, hy, hty⟩
    · rcases mem_succsOf.mp h1 with ⟨a, hE, haS⟩
      have hav : a = v := by simpa using haS
      exact ⟨v, Relation.TransGen.single (hav ▸ hE)⟩
    · rcases mem_succsOf.mp hy with ⟨a, hE, haS⟩
      have hav : a = v := by simpa using haS
      exact ⟨v, Relation.TransGen.head (hav ▸ hE) hty⟩
  · rintro ⟨v, hv⟩
    rcases Relation.TransGen.head'_iff.mp hv with ⟨y, hvy, hyv⟩
    refine ⟨v, List.mem_map_of_mem Prod.fst hvy, ?_⟩
    rw [decide_eq_true_eq]
    have hy : y ∈ reachSet E (succsOf E {v}) :=
      subset_reachSet E _ (mem_succsOf.mpr ⟨v, hvy, by simp⟩)
    exact reachSet_complete E _ hyv hy

lemma transGen_map_edges (f : α → β) (E : List (α × α)) {a b : α}
    (h : Relation.TransGen (edgeRel E) a b) :
    Relation.TransGen (edgeRel (E.map (Prod.map f f))) (f a) (f b) := by
  refine Relation.TransGen.lift f (fun x y hxy => ?_) h
  exact List.mem_map_of_mem (Prod.map f f) hxy

lemma mem_map_prodMap {f : α → β} {E : List (α × α)} {u v : β}
    (h : (u, v) ∈ E.map (Prod.map f f)) :
    ∃ a b, (a, b) ∈ E ∧ f a = u ∧ f b = v := by
  rcases List.mem_map.mp h with ⟨⟨a, b⟩, hE, heq⟩
  exact ⟨a, b, hE, congrArg Prod.fst heq, congrArg Prod.snd heq⟩

lemma transGen_map_edges_rev (f : α → β) (E : List (α × α))
    (hinj : ∀ x ∈ epts E, ∀ y ∈ epts E, f x = f y → x = y)
    {u v : β} (h : Relation.TransGen (edgeRel (E.map (Prod.map f f))) u v) :
    ∀ a b : α, u = f a → v = f b → a ∈ epts E → b ∈ epts E →
      Relation.TransGen (edgeRel E) a b := by
  induction h with
  | single hxy =>
    intro a b hu hv ha hb
    subst hu; subst hv
    rcases mem_map_prodMap hxy with ⟨a', b', hE, hfa, hfb⟩
    have haa : a' = a := hinj a' (mem_epts_fst hE) a ha hfa
    have hbb : b' = b := hinj b' (mem_epts_snd hE) b hb hfb
    subst haa; subst hbb
    exact Relation.TransGen.single hE
  | tail _ hcv ih =>
    intro a b hu hv ha hb
    subst hu; subst hv
    rcases mem_map_prodMap hcv with ⟨c', b', hE, hfc, hfb⟩
    have hbb : b' = b := hinj b' (mem_epts_snd hE) b hb hfb
    subst hbb
    have hstep := ih a c' rfl hfc.symm ha (mem_epts_fst hE)
    exact hstep.tail hE

lemma hasCycleE_map (f : α → β) (E : List (α × α))
    (hinj : ∀ x ∈ epts E, ∀ y ∈ epts E, f x = f y → x = y) :
    hasCycleE (E.map (Prod.map f f)) = hasCycleE E := by
  rw [Bool.eq_iff_iff, hasCycleE_iff, hasCycleE_iff]
  constructor
  · rintro ⟨v, hv⟩
    rcases Relation.TransGen.head'_iff.mp hv with ⟨y, hvy, _⟩
    rcases List.mem_map.mp hvy with ⟨⟨a, b⟩, hE, heq⟩
    have hfa : f a = v := congrArg Prod.fst heq
    refine ⟨a, ?_⟩
    exact transGen_map_edges_rev f E hinj hv a a hfa.symm hfa.symm
      (mem_epts_fst hE) (mem_epts_fst hE)
  · rintro ⟨v, hv⟩
    exact ⟨f v, transGen_map_edges f E hv⟩

end ReachCycle

/-! ## Graph builder (`build_graph`, dag.rs lines 85-107)

`build_graph` adds one graph vertex per record, in input order (vertex `i`
carries the id of record `i`), recording `(id, index)` in a `node_map` whose
`HashMap::insert` overwrites: the binding of the *last* record with a given
id wins.  It then walks the records again and, for each known blocker id in a
record's `blocked_by`, adds an edge from the blocker's mapped vertex to the
record's mapped vertex; unknown blocker ids are silently skipped.  The loops
read only the `id` and `blocked_by` fields. -/

/-- The `node_map` bindings produced by the first loop of `build_graph` when
the remaining record ids are `ids` and the next vertex index is `i`.  Newer
bindings are listed first, so `List.lookup` (first match) returns the binding
of the last record with the looked-up id, exactly as the overwriting
`HashMap::insert` of the source does. -/
def idIndexMapGo : List String → Nat → List (String × Nat)
  | [], _ => []
  | s :: ss, i => idIndexMapGo ss (i + 1) ++ [(s, i)]

/-- The `node_map` of `build_graph`, keyed by record id. -/
def node_map (beads : List BeadNode) : List (String × Nat) :=
  idIndexMapGo (beadIds beads) 0

/-- The vertex index the source associates to id `s` (meaningful when `s` is
among `ids`). -/
def lastIdx (ids : List String) (s : String) : Nat :=
  ((idIndexMapGo ids 0).lookup s).getD 0

/-- A directed graph with one `String`-labelled vertex per index and an
explicit edge list, refining `petgraph::graph::DiGraph<String, ()>`. -/
structure DiGraphL where
  nodes : List String
  edges : List (Nat × Nat)
deriving Repr, DecidableEq

/-- The `(id, blocked_by)` projection of the records: all the graph builder
reads. -/
def bbPairs (beads : List BeadNode) : List (String × List String) :=
  beads.map (fun b => (b.id, b.blocked_by))

/-- The edge loop of `build_graph` (dag.rs lines 96-104) over the
`(id, blocked_by)` projections: for each record, if its id is mapped (it
always is), add `(node_map[blocker], node_map[id])` for every mapped
blocker. -/
def graphEdges (ps : List (String × List String)) : List (Nat × Nat) :=
  ps.flatMap (fun p =>
    match (idIndexMapGo (ps.map Prod.fst) 0).lookup p.1 with
    | some toIdx =>
        p.2.filterMap (fun blocker =>
          ((idIndexMapGo (ps.map Prod.fst) 0).lookup blocker).map
            (fun fromIdx => (fromIdx, toIdx)))
    | none => [])

/-- `build_graph` itself: one vertex per record plus the edge list. -/
def build_graph (beads : List BeadNode) : DiGraphL :=
  { nodes := beadIds beads, edges := graphEdges (bbPairs beads) }

/-- Modelled from the spec: `petgraph::algo::is_cyclic_directed` is an
external crate function, not among the sources; per its documentation it
returns whether the directed graph contains a cycle.  Vertices with no
incident edge lie on no cycle, so the check is a function of the edge
list. -/
def is_cyclic_directed (g : DiGraphL) : Bool := hasCycleE g.edges

/-- `has_cycle_impl` after decoding (dag.rs lines 12-18). -/
def has_cycle (beads : List BeadNode) : Bool := is_cyclic_directed (build_graph beads)

lemma lookup_append_kv {δ : Type} (l1 l2 : List (String × δ)) (k : String) :
    (l1 ++ l2).lookup k =
      match l1.lookup k with
      | some v => some v
      | none => l2.lookup k := by
  induction l1 with
  | nil => simp [List.lookup]
  | cons e l1 ih =>
    rcases e with ⟨a, v⟩
    cases hk : k == a <;> simp [List.lookup, hk, ih]

lemma lookup_single {δ : Type} (k a : String) (v : δ) :
    List.lookup k [(a, v)] = if k == a then some v else none := by
  cases h : k == a <;> simp [List.lookup, h]

lemma idIndexMapGo_lookup_isSome (ids : List String) (i : Nat) (s : String) :
    (((idIndexMapGo ids i).lookup s).isSome = true) ↔ s ∈ ids := by
  induction ids generalizing i with
  | nil => simp [idIndexMapGo, List.lookup]
  | cons t ts ih =>
    rw [idIndexMapGo, lookup_append_kv]
    cases h : (idIndexMapGo ts (i + 1)).lookup s with
    | some v =>
      have hmem : s ∈ ts := (ih (i + 1)).mp (by simp [h])
      simp [List.mem_cons, hmem]
    | none =>
      have hmem : s ∉ ts := by
        intro hs
        have := (ih (i + 1)).mpr hs
        rw [h] at this
        simp at this
      rw [lookup_single]
      cases hst : s == t
      · rw [beq_eq_false_iff_ne] at hst
        simp [List.mem_cons, hst, hmem]
      · rw [beq_iff_eq] at hst
        simp [List.mem_cons, hst]

lemma idIndexMapGo_lookup_eq_some (ids : List String) (i : Nat) (s : String)
    (j : Nat) :
    ((idIndexMapGo ids i).lookup s = some j) ↔
      ∃ k, j = i + k ∧ ids.get? k = some s ∧
        ∀ m, k < m → ids.get? m ≠ some s := by
  induction ids generalizing i j with
  | nil => simp [idIndexMapGo, List.lookup]
  | cons t ts ih =>
    rw [idIndexMapGo, lookup_append_kv]
    cases h : (idIndexMapGo ts (i + 1)).lookup s with
    | some v =>
      rcases (ih (i + 1) v).mp h with ⟨k', hv, hget', hmax'⟩
      constructor
      · intro hj
        have hvj : v = j := by simpa using hj
        refine ⟨k' + 1, by omega, by simpa using hget', ?_⟩
        intro m hm
        cases m with
        | zero => omega
        | succ m' =>
          have hm' : k' < m' := by omega
          simpa using hmax' m' hm'
      · rintro ⟨k, hj, hget, hmax⟩
        cases k with
        | zero =>
          exfalso
          exact hmax (k' + 1) (Nat.succ_pos k') (by simpa using hget')
        | succ k'' =>
          have hget'' : ts.get? k'' = some s := by simpa using hget
          have hmax'' : ∀ m, k'' < m → ts.get? m ≠ some s := by
            intro m hm
            simpa using hmax (m + 1) (by omega)
          have hk1 : k' ≤ k'' := by
            by_contra hlt
            exact hmax'' k' (by omega) hget'
          have hk2 : k'' ≤ k' := by
            by_contra hlt
            exact hmax' k'' (by omega) hget''
          have hke : k' = k'' := Nat.le_antisymm hk1 hk2
          subst hke
          simp only [Option.some.injEq]
          omega
    | none =>
      have hmem : s ∉ ts := by
        intro hs
        have := (idIndexMapGo_lookup_isSome ts (i + 1) s).mpr hs
        rw [h] at this
        simp at this
      have hnotts : ∀ m, ts.get? m ≠ some s := by
        intro m hm
        exact hmem (List.mem_iff_get?.mpr ⟨m, hm⟩)
      rw [lookup_single]
      by_cases hst : s = t
      · subst hst
        rw [if_pos (by simp)]
        constructor
        · intro hj
          have hij : i = j := by simpa using hj
          refine ⟨0, by omega, by simp, ?_⟩
          intro m hm
          cases m with
          | zero => omega
          | succ m' => simpa using hnotts m'
        · rintro ⟨k, hj, hget, _⟩
          cases k with
          | zero => simp only [Option.some.injEq]; omega
          | succ k'' =>
            exfalso
            exact hnotts k'' (by simpa using hget)
      · rw [if_neg (by simpa using hst)]
        constructor
        · intro hj; cases hj
        · rintro ⟨k, hj, hget, _⟩
          cases k with
          | zero =>
            have hts : t = s := by simpa using hget
            exact absurd hts.symm hst
          | succ k'' =>
            exact absurd (by simpa using hget) (hnotts k'')

lemma idIndexMap_lookup_inj (ids : List String) {s1 s2 : String} {j : Nat}
    (h1 : (idIndexMapGo ids 0).lookup s1 = some j)
    (h2 : (idIndexMapGo ids 0).lookup s2 = some j) : s1 = s2 := by
  rcases (idIndexMapGo_lookup_eq_some ids 0 s1 j).mp h1 with ⟨k1, hj1, hget1, _⟩
  rcases (idIndexMapGo_lookup_eq_some ids 0 s2 j).mp h2 with ⟨k2, hj2, hget2, _⟩
  have hk : k1 = k2 := by omega
  subst hk
  rw [hget1] at hget2
  simpa using hget2

lemma lookup_lastIdx {ids : List String} {s : String} (hs : s ∈ ids) :
    (idIndexMapGo ids 0).lookup s = some (lastIdx ids s) := by
  have := (idIndexMapGo_lookup_isSome ids 0 s).mpr hs
  rcases Option.isSome_iff_exists.mp this with ⟨j, hj⟩
  rw [hj]
  simp [lastIdx, hj]

lemma lastIdx_inj (ids : List String) {s1 s2 : String} (h1 : s1 ∈ ids)
    (h2 : s2 ∈ ids) (h : lastIdx ids s1 = lastIdx ids s2) : s1 = s2 := by
  apply idIndexMap_lookup_inj ids (lookup_lastIdx h1)
  rw [h]
  exact lookup_lastIdx h2

/-! ### The spec-side graph of §4.1 and the claim's edge relation -/

/-- The spec graph's edges, at the level of id strings: for each record, an
edge from each of its `blocked_by` ids that is a known id, to the record's
id. -/
def specEdgesP (ps : List (String × List String)) : List (String × String) :=
  ps.flatMap (fun p =>
    ((p.2.filter (fun blocker => (ps.map Prod.fst).contains blocker)).map
      (fun blocker => (blocker, p.1))))

/-- Spec edges of the `blocked_by` graph of a record list. -/
def specBlockedByEdges (beads : List BeadNode) : List (String × String) :=
  specEdgesP (bbPairs beads)

/-- The §4.1 edge relation exactly as the claim states it: an edge runs from
`x` to `y` when some record with id `y` lists `x` in `blocked_by` and `x` is
among the input node ids. -/
def specBlockedByRel (beads : List BeadNode) (x y : String) : Prop :=
  x ∈ beadIds beads ∧ ∃ b ∈ beads, b.id = y ∧ x ∈ b.blocked_by

lemma edgeRel_specBlockedByEdges (beads : List BeadNode) (x y : String) :
    edgeRel (specBlockedByEdges beads) x y ↔ specBlockedByRel beads x y := by
  simp only [edgeRel, specBlockedByEdges, specEdgesP, bbPairs, specBlockedByRel,
    List.mem_flatMap, List.mem_map, List.mem_filter, List.map_map]
  constructor
  · rintro ⟨p, ⟨b, hb, rfl⟩, blocker, ⟨hbl, hcon⟩, heq⟩
    have hx : blocker = x := congrArg Prod.fst heq
    have hy : b.id = y := congrArg Prod.snd heq
    subst hx
    refine ⟨?_, b, hb, hy, hbl⟩
    simpa [beadIds, List.elem_eq_mem, Function.comp] using hcon
  · rintro ⟨hx, b, hb, rfl, hbl⟩
    refine ⟨(b.id, b.blocked_by), ⟨b, hb, rfl⟩, x, ⟨hbl, ?_⟩, rfl⟩
    simpa [beadIds, List.elem_eq_mem, Function.comp] using hx

lemma filterMap_eq_map_of_filter {γ δ : Type} (g : γ → Option δ) (p : γ → Bool)
    (h : γ → δ) (l : List γ)
    (hpg : ∀ x ∈ l, g x = if p x then some (h x) else none) :
    l.filterMap g = (l.filter p).map h := by
  induction l with
  | nil => simp
  | cons x xs ih =>
    have hx := hpg x (List.mem_cons_self x xs)
    have ihx := ih (fun y hy => hpg y (List.mem_cons_of_mem x hy))
    cases hp : p x <;>
      simp [List.filterMap_cons, List.filter_cons, hx, hp, ihx]

lemma graphEdges_go (ids : List String) (qs : List (String × List String))
    (hmem : ∀ p ∈ qs, p.1 ∈ ids) :
    qs.flatMap (fun p =>
      match (idIndexMapGo ids 0).lookup p.1 with
      | some toIdx =>
          p.2.filterMap (fun blocker =>
            ((idIndexMapGo ids 0).lookup blocker).map
              (fun fromIdx => (fromIdx, toIdx)))
      | none => []) =
    (qs.flatMap (fun p =>
      ((p.2.filter (fun blocker => ids.contains blocker)).map
        (fun blocker => (blocker, p.1))))).map
      (Prod.map (lastIdx ids) (lastIdx ids)) := by
  induction qs with
  | nil => simp
  | cons p qs ih =>
    rw [List.flatMap_cons, List.flatMap_cons, List.map_append,
      ih (fun q hq => hmem q (List.mem_cons_of_mem p hq))]
    congr 1
    have hp1 : (idIndexMapGo ids 0).lookup p.1 = some (lastIdx ids p.1) :=
      lookup_lastIdx (hmem p (List.mem_cons_self p qs))
    rw [hp1]
    dsimp only
    rw [filterMap_eq_map_of_filter _ (fun blocker => ids.contains blocker)
      (fun blocker => (lastIdx ids blocker, lastIdx ids p.1)) p.2 ?_]
    · rw [List.map_map]
      rfl
    · intro x _
      by_cases hx : x ∈ ids
      · rw [lookup_lastIdx hx]
        simp [List.elem_eq_mem, hx]
      · have : (idIndexMapGo ids 0).lookup x = none := by
          cases h : (idIndexMapGo ids 0).lookup x with
          | none => rfl
          | some v =>
            exact absurd ((idIndexMapGo_lookup_isSome ids 0 x).mp (by simp [h])) hx
        rw [this]
        simp [List.elem_eq_mem, hx]

lemma graphEdges_eq_spec (ps : List (String × List String)) :
    graphEdges ps = (specEdgesP ps).map
      (Prod.map (lastIdx (ps.map Prod.fst)) (lastIdx (ps.map Prod.fst))) := by
  unfold graphEdges specEdgesP
  exact graphEdges_go (ps.map Prod.fst) ps
    (fun p hp => List.mem_map_of_mem Prod.fst hp)

lemma epts_specEdgesP_subset (ps : List (String × List String)) {x : String}
    (hx : x ∈ epts (specEdgesP ps)) : x ∈ ps.map Prod.fst := by
  simp only [epts, Finset.mem_union, List.mem_toFinset, List.mem_map] at hx
  rcases hx with ⟨⟨a, b⟩, hab, rfl⟩ | ⟨⟨a, b⟩, hab, rfl⟩ <;>
    simp only [specEdgesP, List.mem_flatMap, List.mem_map, List.mem_filter] at hab
  · rcases hab with ⟨p, _, blocker, ⟨_, hcon⟩, heq⟩
    have : blocker = a := congrArg Prod.fst heq
    subst this
    simpa [List.elem_eq_mem] using hcon
  · rcases hab with ⟨p, hp, blocker, _, heq⟩
    have : p.1 = b := congrArg Prod.snd heq
    subst this
    exact List.mem_map_of_mem Prod.fst hp

lemma has_cycle_eq_spec_strings (beads : List BeadNode) :
    has_cycle beads = hasCycleE (specBlockedByEdges beads) := by
  unfold has_cycle is_cyclic_directed build_graph specBlockedByEdges
  simp only
  rw [graphEdges_eq_spec]
  apply hasCycleE_map
  intro x hx y hy hxy
  exact lastIdx_inj _ (epts_specEdgesP_subset _ hx) (epts_specEdgesP_subset _ hy) hxy

/-- C2: `has_cycle` returns true exactly when the graph described by the
spec — one vertex per input node, an edge from each id of a node's
`blocked_by` list to that node, edges with unknown blocker ids silently
dropped — contains a directed cycle (some vertex reaches itself by a
nonempty directed walk). -/
theorem has_cycle_iff_spec (beads : List BeadNode) :
    has_cycle beads = true ↔ ∃ v, Relation.TransGen (specBlockedByRel beads) v v := by
  rw [has_cycle_eq_spec_strings, hasCycleE_iff]
  constructor <;> rintro ⟨v, hv⟩ <;> refine ⟨v, hv.mono ?_⟩
  · intro a b hab
    exact (edgeRel_specBlockedByEdges beads a b).mp hab
  · intro a b hab
    exact (edgeRel_specBlockedByEdges beads a b).mpr hab

/-! ## Duplicate ids in the graph builder (C9)

`build_graph` adds one vertex per *record*; when an id repeats, `node_map`
keeps the vertex of the last record with that id, every record's
`blocked_by` edges attach to that last vertex, and the earlier duplicates
remain as extra isolated vertices. -/

/-- An input whose id `"a"` occurs on two records: the first `"a"` record has
no blockers, the second is blocked by `"b"`, and `"b"` is blocked by
`"a"`. -/
def dupBeads : List BeadNode :=
  [⟨"a", "A", "open", 0, [], [], none⟩,
   ⟨"a", "A2", "open", 0, ["b"], [], none⟩,
   ⟨"b", "B", "open", 0, ["a"], [], none⟩]

/-- Keep only the first record of each id (what "duplicates collapse with the
first-seen record's attributes defining the vertex" would mean). -/
def dedupFirst (beads : List BeadNode) : List BeadNode :=
  beads.foldl
    (fun acc b => if acc.any (fun c => c.id == b.id) then acc else acc ++ [b]) []

/-- Counterexample to C9: on `dupBeads` the vertex list is `["a", "a", "b"]`,
not the two distinct ids, and the graph's observable behaviour (through
`has_cycle`) differs from the graph of the first-seen-deduplicated records:
the duplicate `"a"` records' `blocked_by` lists both attach to the last
`"a"` vertex, creating a cycle with `"b"`, while the first-seen record has no
blockers and yields an acyclic graph. -/
theorem build_graph_collapse_counterexample :
    (¬ (build_graph dupBeads).nodes = (beadIds dupBeads).dedup) ∧
    has_cycle dupBeads = true ∧ has_cycle (dedupFirst dupBeads) = false := by
  refine ⟨by decide, by decide, by decide⟩

lemma bbPairs_fst (beads : List BeadNode) :
    (bbPairs beads).map Prod.fst = beadIds beads := by
  simp [bbPairs, beadIds]

/-- C9 (amended): the graph builder's vertex list has one vertex per input
record, in input order (so repeated ids yield repeated vertices, and the set
of vertex labels equals the set of distinct input ids); the id-to-vertex map
binds each id to the position of its *last* record; and the edge list is the
spec's id-level `blocked_by` edge list relabelled through that last-position
map (so every record's `blocked_by` list contributes edges, all attached to
last-seen vertices). -/
theorem build_graph_duplicates_amended (beads : List BeadNode) :
    (build_graph beads).nodes = beadIds beads ∧
    ((build_graph beads).nodes).toFinset = ((beadIds beads).dedup).toFinset ∧
    (build_graph beads).edges = (specBlockedByEdges beads).map
      (Prod.map (lastIdx (beadIds beads)) (lastIdx (beadIds beads))) ∧
    ∀ s j, (node_map beads).lookup s = some j ↔
      ((beadIds beads).get? j = some s ∧
        ∀ m, j < m → (beadIds beads).get? m ≠ some s) := by
  refine ⟨rfl, ?_, ?_, ?_⟩
  · ext x
    simp only [List.mem_toFinset, List.mem_dedup]
    exact Iff.rfl
  · show graphEdges (bbPairs beads) = _
    rw [graphEdges_eq_spec, bbPairs_fst]
    rfl
  · intro s j
    rw [node_map, idIndexMapGo_lookup_eq_some]
    constructor
    · rintro ⟨k, hk, hget, hmax⟩
      have : j = k := by omega
      subst this
      exact ⟨hget, hmax⟩
    · rintro ⟨hget, hmax⟩
      exact ⟨j, by omega, hget, hmax⟩

/-! ## Level scheduler (`compute_levels_internal`, dag.rs lines 200-249)

The Rust function seeds a queue with every record whose `blocked_by` is
empty (level 0), then repeatedly dequeues an id and assigns a level to every
still-unassigned record that lists the dequeued id among its blockers and
whose blockers are all assigned: the new level is one plus the maximum of
the blockers' levels.  It reads only the `id` and `blocked_by` fields, so it
is embedded over the `(id, blocked_by)` projections.  The `id_to_index` and
`in_degree` maps the source also fills are never read and do not influence
the result.  `levels` is a `HashMap<usize, Vec<String>>` used only through
`entry(..).or_insert_with(Vec::new).push(..)`, `level_map` an insert-only
`HashMap<String, usize>` whose inserted keys are always fresh; both are
refined by association lists. -/

/-- The mutable state of `compute_levels_internal`. -/
structure LevelsState where
  levels : List (Nat × List String)
  level_map : List (String × Nat)
  queue : List String
deriving Repr, DecidableEq

/-- `levels.entry(k).or_insert_with(Vec::new).push(v)`. -/
def levelsPush (m : List (Nat × List String)) (k : Nat) (v : String) :
    List (Nat × List String) :=
  if m.any (fun e => e.1 == k) then
    m.map (fun e => if e.1 == k then (e.1, e.2 ++ [v]) else e)
  else m ++ [(k, [v])]

/-- The seeding loop (dag.rs lines 214-220). -/
def levelsSeed (ps : List (String × List String)) : LevelsState :=
  ps.foldl
    (fun st p =>
      if p.2.isEmpty then
        { levels := levelsPush st.levels 0 p.1,
          level_map := (p.1, 0) :: st.level_map,
          queue := st.queue ++ [p.1] }
      else st)
    ⟨[], [], []⟩

/-- The body of one dequeue step (dag.rs lines 226-245): scan all records;
assign each one that lists the dequeued `id` among its blockers, is not yet
assigned, and has all blockers assigned.  (The `current_level` the source
reads for the dequeued id is never used afterwards.) -/
def levelsVisit (ps : List (String × List String)) (id : String)
    (st : LevelsState) : LevelsState :=
  ps.foldl
    (fun st' p =>
      if p.2.contains id && !((st'.level_map.lookup p.1).isSome) then
        if p.2.all (fun dep => (st'.level_map.lookup dep).isSome) then
          { levels := levelsPush st'.levels
              ((p.2.filterMap (fun dep => st'.level_map.lookup dep)).foldl
                Nat.max 0 + 1) p.1,
            level_map :=
              (p.1, (p.2.filterMap (fun dep => st'.level_map.lookup dep)).foldl
                Nat.max 0 + 1) :: st'.level_map,
            queue := st'.queue ++ [p.1] }
        else st'
      else st')
    st

/-- Ids not yet bound in the level map, counted once each. -/
def unassignedCount (ps : List (String × List String))
    (m : List (String × Nat)) : Nat :=
  (((ps.map Prod.fst).dedup).filter (fun s => !((m.lookup s).isSome))).length

/-- Termination measure of the scheduler loop: every dequeue step removes one
queue element and every assignment trades one unassigned id for one queue
element. -/
def levelsMu (ps : List (String × List String)) (st : LevelsState) : Nat :=
  2 * unassignedCount ps st.level_map + st.queue.length

lemma lookup_cons {κ δ : Type} [BEq κ] (k s : κ) (v : δ) (m : List (κ × δ)) :
    ((k, v) :: m).lookup s = if s == k then some v else m.lookup s := by
  cases h : s == k <;> simp [List.lookup, h]

lemma filter_length_flip {l : List String} (hnd : l.Nodup) {k : String}
    (hk : k ∈ l) {p q : String → Bool} (hpq : ∀ s, s ≠ k → q s = p s)
    (hp : p k = true) (hq : q k = false) :
    (l.filter q).length + 1 = (l.filter p).length := by
  induction l with
  | nil => cases hk
  | cons a t ih =>
    rcases List.mem_cons.mp hk with rfl | hkt
    · rw [List.filter_cons, List.filter_cons, hp, hq]
      have ha : t.filter q = t.filter p := by
        apply List.filter_congr
        intro s hs
        apply hpq
        intro hsk
        subst hsk
        exact (List.nodup_cons.mp hnd).1 hs
      simp [ha]
    · have hak : a ≠ k := fun h => (List.nodup_cons.mp hnd).1 (h ▸ hkt)
      have iht := ih (List.nodup_cons.mp hnd).2 hkt
      rw [List.filter_cons, List.filter_cons, hpq a hak]
      cases hpa : p a
      · rw [if_neg (by simp), if_neg (by simp)]
        omega
      · rw [if_pos rfl, if_pos rfl]
        simp only [List.length_cons]
        omega

lemma unassigned_insert (ps : List (String × List String))
    {m : List (String × Nat)} {k : String} (hk : k ∈ ps.map Prod.fst)
    (hfresh : (m.lookup k).isSome = false) (lvl : Nat) :
    unassignedCount ps ((k, lvl) :: m) + 1 = unassignedCount ps m := by
  unfold unassignedCount
  apply filter_length_flip (List.nodup_dedup _) (List.mem_dedup.mpr hk)
  · intro s hsk
    have hne : (s == k) = false := beq_eq_false_iff_ne.mpr hsk
    simp [lookup_cons, hne]
  · simp [hfresh]
  · simp [lookup_cons]

lemma foldl_mu_le {σ γ : Type} (μ : σ → Nat) (f : σ → γ → σ) (l : List γ)
    (h : ∀ st x, x ∈ l → μ (f st x) ≤ μ st) : ∀ st : σ, μ (l.foldl f st) ≤ μ st := by
  induction l with
  | nil => intro st; simp
  | cons x xs ih =>
    intro st
    calc μ (xs.foldl f (f st x)) ≤ μ (f st x) :=
          ih (fun st' y hy => h st' y (List.mem_cons_of_mem x hy)) (f st x)
      _ ≤ μ st := h st x (List.mem_cons_self x xs)

lemma levelsVisit_mu_le (ps : List (String × List String)) (id : String)
    (st : LevelsState) : levelsMu ps (levelsVisit ps id st) ≤ levelsMu ps st := by
  unfold levelsVisit
  apply foldl_mu_le
  intro st' p hp
  cases h1 : (p.2.contains id && !((st'.level_map.lookup p.1).isSome)) with
  | false => simp [h1]
  | true =>
    cases h2 : p.2.all (fun dep => (st'.level_map.lookup dep).isSome) with
    | false => simp [h1, h2]
    | true =>
      simp only [h1, h2, if_true]
      have hfresh : (st'.level_map.lookup p.1).isSome = false := by
        have := (Bool.and_eq_true _ _).mp h1
        simpa using this.2
      have hk : p.1 ∈ ps.map Prod.fst := List.mem_map_of_mem Prod.fst hp
      have hins := unassigned_insert ps hk hfresh
        ((p.2.filterMap (fun dep => st'.level_map.lookup dep)).foldl Nat.max 0 + 1)
      unfold levelsMu
      simp only [List.length_append, List.length_cons, List.length_nil]
      omega

/-- The dequeue loop (dag.rs lines 222-246). -/
def levelsLoop (ps : List (String × List String)) (st : LevelsState) :
    LevelsState :=
  match h : st.queue with
  | [] => st
  | id :: rest =>
    levelsLoop ps
      (levelsVisit ps id ⟨st.levels, st.level_map, rest⟩)
termination_by levelsMu ps st
decreasing_by
  have hle := levelsVisit_mu_le ps id ⟨st.levels, st.level_map, rest⟩
  have hq : st.queue.length = rest.length + 1 := by rw [h]; rfl
  unfold levelsMu at hle ⊢
  simp only at hle ⊢
  omega

/-- `compute_levels_internal` (dag.rs lines 200-249): run the seed pass and
the dequeue loop, then return the level map. -/
def compute_levels_internal (beads : List BeadNode) : List (Nat × List String) :=
  (levelsLoop (bbPairs beads) (levelsSeed (bbPairs beads))).levels

/-- The level assigned to a node id by the output mapping, if any: the key of
the (unique) entry whose list contains the id. -/
def levelOf (levels : List (Nat × List String)) (s : String) : Option Nat :=
  (levels.find? (fun e => e.2.contains s)).map Prod.fst

/-! ### Properties of `levelsPush` -/

lemma map_push_id (L : List (Nat × List String)) (k : Nat) (v : String)
    (hk : ∀ e ∈ L, e.1 ≠ k) :
    L.map (fun e => if e.1 == k then (e.1, e.2 ++ [v]) else e) = L := by
  conv_rhs => rw [← List.map_id L]
  apply List.map_congr_left
  intro e he
  have : (e.1 == k) = false := beq_eq_false_iff_ne.mpr (hk e he)
  simp [this]

lemma levelsPush_keys (L : List (Nat × List String)) (k : Nat) (v : String) :
    (levelsPush L k v).map Prod.fst = L.map Prod.fst ∨
      ((levelsPush L k v).map Prod.fst = L.map Prod.fst ++ [k] ∧
        k ∉ L.map Prod.fst) := by
  unfold levelsPush
  cases hany : L.any (fun e => e.1 == k) with
  | true =>
    left
    rw [if_pos (by simp [hany])]
    rw [List.map_map]
    apply List.map_congr_left
    intro e _
    by_cases he : e.1 = k
    · simp [he]
    · have hb : (e.1 == k) = false := beq_eq_false_iff_ne.mpr he
      simp [hb, he]
  | false =>
    right
    rw [if_neg (by simp [hany])]
    refine ⟨by simp, ?_⟩
    intro hk
    rcases List.mem_map.mp hk with ⟨e, he, hek⟩
    have hcon : L.any (fun e => e.1 == k) = true :=
      List.any_eq_true.mpr ⟨e, he, by rw [beq_iff_eq]; exact hek⟩
    rw [hany] at hcon
    cases hcon

lemma levelsPush_keys_nodup (L : List (Nat × List String)) (k : Nat) (v : String)
    (hnd : (L.map Prod.fst).Nodup) :
    ((levelsPush L k v).map Prod.fst).Nodup := by
  rcases levelsPush_keys L k v with h | ⟨h, hk⟩
  · rw [h]; exact hnd
  · rw [h]
    have hcons : (k :: L.map Prod.fst).Nodup := List.nodup_cons.mpr ⟨hk, hnd⟩
    exact (List.perm_append_singleton k (L.map Prod.fst)).symm.nodup hcons

lemma levelsPush_flat_perm (L : List (Nat × List String)) (k : Nat) (v : String)
    (hnd : (L.map Prod.fst).Nodup) :
    List.Perm ((levelsPush L k v).flatMap (fun e => e.2))
      ((L.flatMap (fun e => e.2)) ++ [v]) := by
  unfold levelsPush
  cases hany : L.any (fun e => e.1 == k) with
  | false =>
    rw [if_neg (by simp [hany])]
    simp
  | true =>
    rw [if_pos (by simp [hany])]
    induction L with
    | nil => cases hany
    | cons e L' ih =>
      have hnd1 : (e.1 :: L'.map Prod.fst).Nodup := by
        simpa only [List.map_cons] using hnd
      have hfst : e.1 ∉ L'.map Prod.fst := (List.nodup_cons.mp hnd1).1
      have hnd' : (L'.map Prod.fst).Nodup := (List.nodup_cons.mp hnd1).2
      rw [List.map_cons, List.flatMap_cons, List.flatMap_cons]
      by_cases hek : e.1 = k
      · have hfresh : ∀ e' ∈ L', e'.1 ≠ k := by
          intro e' he' hk'
          have h1 : k ∈ L'.map Prod.fst := by
            rw [← hk']; exact List.mem_map_of_mem Prod.fst he'
          rw [hek] at hfst
          exact hfst h1
        have hif : (if e.1 == k then (e.1, e.2 ++ [v]) else e) = (e.1, e.2 ++ [v]) := by
          simp [hek]
        simp only [hif, map_push_id L' k v hfresh]
        rw [List.append_assoc, List.append_assoc]
        exact List.Perm.append_left e.2 List.perm_append_comm
      · have hbeq : (e.1 == k) = false := beq_eq_false_iff_ne.mpr hek
        have hany' : L'.any (fun e => e.1 == k) = true := by
          rcases List.any_eq_true.mp hany with ⟨e', he', hk'⟩
          rcases List.mem_cons.mp he' with rfl | hmem
          · rw [hbeq] at hk'; cases hk'
          · exact List.any_eq_true.mpr ⟨e', hmem, hk'⟩
        have hif : (if e.1 == k then (e.1, e.2 ++ [v]) else e) = e := by
          simp [hbeq]
        simp only [hif]
        rw [List.append_assoc]
        exact List.Perm.append_left e.2 (ih hnd' hany')

lemma levelsPush_mem_entry (L : List (Nat × List String)) (k : Nat) (v : String)
    (hnd : (L.map Prod.fst).Nodup) (s : String) (l : Nat) :
    (∃ e ∈ levelsPush L k v, e.1 = l ∧ s ∈ e.2) ↔
      ((∃ e ∈ L, e.1 = l ∧ s ∈ e.2) ∨ (s = v ∧ l = k)) := by
  unfold levelsPush
  cases hany : L.any (fun e => e.1 == k) with
  | false =>
    rw [if_neg (by simp [hany])]
    constructor
    · rintro ⟨e, he, h1, h2⟩
      rcases List.mem_append.mp he with hL | hsing
      · exact Or.inl ⟨e, hL, h1, h2⟩
      · have : e = (k, [v]) := by simpa using hsing
        subst this
        right
        refine ⟨by simpa using h2, h1.symm⟩
    · rintro (⟨e, he, h1, h2⟩ | ⟨rfl, rfl⟩)
      · exact ⟨e, List.mem_append_left _ he, h1, h2⟩
      · exact ⟨(l, [s]), List.mem_append_right _ (by simp), rfl, by simp⟩
  | true =>
    rw [if_pos (by simp [hany])]
    constructor
    · rintro ⟨e, he, h1, h2⟩
      rcases List.mem_map.mp he with ⟨e0, he0, heq⟩
      by_cases hek : e0.1 = k
      · rw [if_pos (by simp [hek])] at heq
        subst heq
        simp only at h1 h2
        rcases List.mem_append.mp h2 with h2' | h2''
        · exact Or.inl ⟨e0, he0, hek.symm ▸ h1, h2'⟩
        · exact Or.inr ⟨by simpa using h2'', by rw [← h1, hek]⟩
      · rw [if_neg (by simp [beq_eq_false_iff_ne.mpr hek])] at heq
        subst heq
        exact Or.inl ⟨e0, he0, h1, h2⟩
    · rintro (⟨e, he, h1, h2⟩ | ⟨rfl, rfl⟩)
      · by_cases hek : e.1 = k
        · refine ⟨(e.1, e.2 ++ [v]), ?_, h1, by simp [h2]⟩
          rcases List.mem_map.mp (List.mem_map_of_mem
            (fun e => if e.1 == k then (e.1, e.2 ++ [v]) else e) he) with _
          have : (if e.1 == k then (e.1, e.2 ++ [v]) else e) = (e.1, e.2 ++ [v]) := by
            simp [hek]
          rw [← this]
          exact List.mem_map_of_mem _ he
        · refine ⟨e, ?_, h1, h2⟩
          have : (if e.1 == k then (e.1, e.2 ++ [v]) else e) = e := by
            simp [beq_eq_false_iff_ne.mpr hek]
          rw [← this]
          exact List.mem_map_of_mem _ he
      · rcases List.any_eq_true.mp hany with ⟨e, he, hek⟩
        rw [beq_iff_eq] at hek
        refine ⟨(e.1, e.2 ++ [s]), ?_, hek, by simp⟩
        have : (if e.1 == l then (e.1, e.2 ++ [s]) else e) = (e.1, e.2 ++ [s]) := by
          simp [hek]
        rw [← this]
        exact List.mem_map_of_mem _ he

/-! ### The seed pass in closed form, and the scheduler invariant -/

/-- Ids of the records with an empty `blocked_by`, in input order. -/
def seedIds (ps : List (String × List String)) : List String :=
  (ps.filter (fun p => p.2.isEmpty)).map Prod.fst

lemma seed_go (qs : List (String × List String)) (l0 : List String)
    (m : List (String × Nat)) (q : List String) :
    qs.foldl
      (fun (st : LevelsState) p =>
        if p.2.isEmpty then
          { levels := levelsPush st.levels 0 p.1,
            level_map := (p.1, 0) :: st.level_map,
            queue := st.queue ++ [p.1] }
        else st)
      (⟨[(0, l0)], m, q⟩ : LevelsState) =
      (⟨[(0, l0 ++ seedIds qs)],
        (seedIds qs).reverse.map (fun s => (s, 0)) ++ m,
        q ++ seedIds qs⟩ : LevelsState) := by
  induction qs generalizing l0 m q with
  | nil => simp [seedIds]
  | cons p qs ih =>
    rw [List.foldl_cons]
    cases hp : p.2.isEmpty with
    | false =>
      have hseed : seedIds (p :: qs) = seedIds qs := by
        simp [seedIds, List.filter_cons, hp]
      rw [if_neg (by simp [hp]), ih, hseed]
    | true =>
      have hseed : seedIds (p :: qs) = p.1 :: seedIds qs := by
        simp [seedIds, List.filter_cons, hp]
      have hpush : levelsPush [(0, l0)] 0 p.1 = [(0, l0 ++ [p.1])] := by
        simp [levelsPush]
      rw [if_pos (by simp [hp])]
      simp only [hpush]
      rw [ih (l0 ++ [p.1]) ((p.1, 0) :: m) (q ++ [p.1]), hseed]
      simp

lemma levelsSeed_closed (ps : List (String × List String)) :
    levelsSeed ps =
      ⟨if seedIds ps = [] then [] else [(0, seedIds ps)],
        (seedIds ps).reverse.map (fun s => (s, 0)),
        seedIds ps⟩ := by
  unfold levelsSeed
  induction ps with
  | nil => simp [seedIds]
  | cons p qs ih =>
    rw [List.foldl_cons]
    cases hp : p.2.isEmpty with
    | false =>
      have hseed : seedIds (p :: qs) = seedIds qs := by
        simp [seedIds, List.filter_cons, hp]
      rw [if_neg (by simp [hp]), hseed]
      exact ih
    | true =>
      have hseed : seedIds (p :: qs) = p.1 :: seedIds qs := by
        simp [seedIds, List.filter_cons, hp]
      have hpush : levelsPush [] 0 p.1 = [(0, [p.1])] := by
        simp [levelsPush]
      rw [if_pos (by simp [hp])]
      simp only [hpush, List.nil_append]
      rw [seed_go qs [p.1] [(p.1, 0)] [p.1], hseed]
      simp

/-- The loop invariant of the level scheduler: level keys are unique, ids
appear at most once across the level lists, the level lists and the level
map agree, level 0 holds exactly the empty-`blocked_by` records, and every
positive binding records one plus the maximum of its record's blocker
levels, all of which are bound. -/
structure LevelsInv (ps : List (String × List String)) (st : LevelsState) :
    Prop where
  keys_nodup : (st.levels.map Prod.fst).Nodup
  flat_nodup : (st.levels.flatMap (fun e => e.2)).Nodup
  map_levels : ∀ s l,
    st.level_map.lookup s = some l ↔ ∃ e ∈ st.levels, e.1 = l ∧ s ∈ e.2
  sound0 : ∀ s, st.level_map.lookup s = some 0 → ∃ p ∈ ps, p.1 = s ∧ p.2 = []
  complete0 : ∀ p ∈ ps, p.2 = [] → st.level_map.lookup p.1 = some 0
  soundPos : ∀ s l, st.level_map.lookup s = some (l + 1) →
    ∃ p ∈ ps, p.1 = s ∧ p.2 ≠ [] ∧
      (∀ dep ∈ p.2, (st.level_map.lookup dep).isSome = true) ∧
      l + 1 = (p.2.filterMap (fun dep => st.level_map.lookup dep)).foldl
        Nat.max 0 + 1

lemma lookup_constMap (l : List String) (x : String) :
    (l.map (fun t => (t, (0 : Nat)))).lookup x = if x ∈ l then some 0 else none := by
  induction l with
  | nil => simp [List.lookup]
  | cons a t ih =>
    rw [List.map_cons, lookup_cons]
    by_cases hxa : x = a
    · rw [if_pos (by simp [hxa]), if_pos (by simp [hxa])]
    · rw [if_neg (by simp [hxa]), ih]
      by_cases hxt : x ∈ t
      · rw [if_pos hxt, if_pos (List.mem_cons_of_mem a hxt)]
      · rw [if_neg hxt, if_neg (by simp [hxa, hxt])]

lemma seedIds_nodup (ps : List (String × List String))
    (hnd : (ps.map Prod.fst).Nodup) : (seedIds ps).Nodup := by
  unfold seedIds
  exact List.Nodup.sublist ((List.filter_sublist ps).map Prod.fst) hnd

lemma levelsSeed_inv (ps : List (String × List String))
    (hnd : (ps.map Prod.fst).Nodup) : LevelsInv ps (levelsSeed ps) := by
  rw [levelsSeed_closed]
  have hndseed := seedIds_nodup ps hnd
  have hlk : ∀ x, (((seedIds ps).reverse.map (fun s => (s, 0))).lookup x) =
      if x ∈ seedIds ps then some 0 else none := by
    intro x
    rw [lookup_constMap]
    by_cases hx : x ∈ seedIds ps
    · rw [if_pos (List.mem_reverse.mpr hx), if_pos hx]
    · rw [if_neg (fun hc => hx (List.mem_reverse.mp hc)), if_neg hx]
  have hmem_seed : ∀ x, x ∈ seedIds ps ↔ ∃ p ∈ ps, p.1 = x ∧ p.2 = [] := by
    intro x
    unfold seedIds
    simp only [List.mem_map, List.mem_filter]
    constructor
    · rintro ⟨p, ⟨hp, he⟩, rfl⟩
      exact ⟨p, hp, rfl, List.isEmpty_iff.mp he⟩
    · rintro ⟨p, hp, rfl, he⟩
      exact ⟨p, ⟨hp, by simp [he]⟩, rfl⟩
  refine ⟨?_, ?_, ?_, ?_, ?_, ?_⟩
  · by_cases h : seedIds ps = [] <;> simp [h]
  · by_cases h : seedIds ps = [] <;> simp [h, hndseed]
  · intro s l
    rw [hlk s]
    by_cases hs : s ∈ seedIds ps
    · rw [if_pos hs]
      by_cases h0 : seedIds ps = []
      · rw [h0] at hs; cases hs
      · rw [if_neg h0]
        constructor
        · intro hl
          exact ⟨(0, seedIds ps), by simp, by simpa using hl, hs⟩
        · rintro ⟨e, he, h1, h2⟩
          have : e = (0, seedIds ps) := by simpa using he
          subst this
          simp only at h1
          rw [h1]
    · rw [if_neg hs]
      constructor
      · intro h; cases h
      · rintro ⟨e, he, h1, h2⟩
        by_cases h0 : seedIds ps = []
        · rw [h0] at he; cases he
        · rw [if_neg h0] at he
          have : e = (0, seedIds ps) := by simpa using he
          subst this
          exact absurd h2 hs
  · intro s hsome
    rw [hlk s] at hsome
    by_cases hs : s ∈ seedIds ps
    · exact (hmem_seed s).mp hs
    · rw [if_neg hs] at hsome; cases hsome
  · intro p hp hpe
    have : p.1 ∈ seedIds ps := (hmem_seed p.1).mpr ⟨p, hp, rfl, hpe⟩
    rw [hlk p.1, if_pos this]
  · intro s l hsome
    rw [hlk s] at hsome
    by_cases hs : s ∈ seedIds ps
    · rw [if_pos hs] at hsome
      cases hsome
    · rw [if_neg hs] at hsome; cases hsome

lemma lookup_insert_self (m : List (String × Nat)) (k : String) (lvl : Nat) :
    ((k, lvl) :: m).lookup k = some lvl := by
  rw [lookup_cons, if_pos (by simp)]

lemma lookup_insert_stable {m : List (String × Nat)} {k : String}
    (hfresh : m.lookup k = none) {x : String}
    (hx : (m.lookup x).isSome = true) (lvl : Nat) :
    ((k, lvl) :: m).lookup x = m.lookup x := by
  rw [lookup_cons]
  rw [if_neg]
  intro hxk
  rw [beq_iff_eq] at hxk
  subst hxk
  rw [hfresh] at hx
  cases hx

lemma filterMap_lookup_congr {m m' : List (String × Nat)} (l : List String)
    (h : ∀ dep ∈ l, m'.lookup dep = m.lookup dep) :
    l.filterMap (fun dep => m'.lookup dep) =
      l.filterMap (fun dep => m.lookup dep) := by
  induction l with
  | nil => rfl
  | cons x xs ih =>
    have hx := h x (List.mem_cons_self x xs)
    have ihx := ih (fun d hd => h d (List.mem_cons_of_mem x hd))
    rw [List.filterMap_cons, List.filterMap_cons, hx, ihx]

lemma foldl_inv {σ γ : Type} (P : σ → Prop) (f : σ → γ → σ) (l : List γ)
    (h : ∀ st x, x ∈ l → P st → P (f st x)) : ∀ st, P st → P (l.foldl f st) := by
  induction l with
  | nil => intro st hst; exact hst
  | cons x xs ih =>
    intro st hst
    exact ih (fun st' y hy => h st' y (List.mem_cons_of_mem x hy)) (f st x)
      (h st x (List.mem_cons_self x xs) hst)

lemma levelsVisit_inv (ps : List (String × List String))
    (hnd : (ps.map Prod.fst).Nodup) (id : String) (st : LevelsState)
    (hinv : LevelsInv ps st) : LevelsInv ps (levelsVisit ps id st) := by
  unfold levelsVisit
  refine foldl_inv (LevelsInv ps) _ ps ?_ st hinv
  intro st' p hp hinv'
  obtain ⟨hkeys, hflat, hml, hs0, hc0, hsp⟩ := hinv'
  cases h1 : (p.2.contains id && !((st'.level_map.lookup p.1).isSome)) with
  | false =>
    rw [if_neg (by simp [h1])]
    exact ⟨hkeys, hflat, hml, hs0, hc0, hsp⟩
  | true =>
    rw [if_pos (by simp [h1])]
    cases h2 : p.2.all (fun dep => (st'.level_map.lookup dep).isSome) with
    | false =>
      rw [if_neg (by simp [h2])]
      exact ⟨hkeys, hflat, hml, hs0, hc0, hsp⟩
    | true =>
      rw [if_pos (by simp [h2])]
      set lvl :=
        (p.2.filterMap (fun dep => st'.level_map.lookup dep)).foldl Nat.max 0 + 1
        with hlvl
      have hfreshB : (st'.level_map.lookup p.1).isSome = false := by
        have h1' := (Bool.and_eq_true _ _).mp h1
        simpa using h1'.2
      have hfresh : st'.level_map.lookup p.1 = none := by
        cases ho : st'.level_map.lookup p.1 with
        | none => rfl
        | some v => rw [ho] at hfreshB; cases hfreshB
      have hall : ∀ dep ∈ p.2, (st'.level_map.lookup dep).isSome = true :=
        fun dep hdep => (List.all_eq_true.mp h2) dep hdep
      have hpne : p.2 ≠ [] := by
        have hcon := ((Bool.and_eq_true _ _).mp h1).1
        have hidmem : id ∈ p.2 := by
          simpa [List.contains, List.elem_eq_mem] using hcon
        exact List.ne_nil_of_mem hidmem
      have hstable : ∀ x, (st'.level_map.lookup x).isSome = true →
          ((p.1, lvl) :: st'.level_map).lookup x = st'.level_map.lookup x :=
        fun x hx => lookup_insert_stable hfresh hx lvl
      refine ⟨?_, ?_, ?_, ?_, ?_, ?_⟩
      · exact levelsPush_keys_nodup _ _ _ hkeys
      · have hp1flat : p.1 ∉ st'.levels.flatMap (fun e => e.2) := by
          intro hmem
          rcases List.mem_flatMap.mp hmem with ⟨e, he, hin⟩
          have := (hml p.1 e.1).mpr ⟨e, he, rfl, hin⟩
          rw [hfresh] at this
          cases this
        have hnd2 : ((st'.levels.flatMap (fun e => e.2)) ++ [p.1]).Nodup := by
          have hcons : (p.1 :: st'.levels.flatMap (fun e => e.2)).Nodup :=
            List.nodup_cons.mpr ⟨hp1flat, hflat⟩
          exact (List.perm_append_singleton _ _).symm.nodup hcons
        exact (levelsPush_flat_perm st'.levels lvl p.1 hkeys).symm.nodup hnd2
      · intro s l
        rw [levelsPush_mem_entry st'.levels lvl p.1 hkeys s l]
        by_cases hs : s = p.1
        · subst hs
          rw [lookup_insert_self]
          constructor
          · intro hl
            right
            exact ⟨rfl, by simpa using hl.symm⟩
          · rintro (⟨e, he, h1', h2'⟩ | ⟨_, rfl⟩)
            · exfalso
              have := (hml p.1 e.1).mpr ⟨e, he, rfl, h2'⟩
              rw [hfresh] at this
              cases this
            · rfl
        · have hsb : (s == p.1) = false := beq_eq_false_iff_ne.mpr hs
          rw [lookup_cons, if_neg (by simp [hsb]), hml s l]
          constructor
          · exact fun h => Or.inl h
          · rintro (h | ⟨hsv, _⟩)
            · exact h
            · exact absurd hsv hs
      · intro s hs0'
        by_cases hs : s = p.1
        · subst hs
          rw [lookup_insert_self] at hs0'
          have hz : lvl = 0 := by simpa using hs0'
          rw [hlvl] at hz
          exact absurd hz (Nat.succ_ne_zero _)
        · rw [lookup_cons, if_neg (by simp [beq_eq_false_iff_ne.mpr hs])] at hs0'
          exact hs0 s hs0'
      · intro p' hp' hpe'
        have hne : p'.1 ≠ p.1 := by
          intro he
          have hpp : p' = p := List.inj_on_of_nodup_map hnd hp' hp he
          rw [hpp] at hpe'
          exact hpne hpe'
        rw [lookup_cons, if_neg (by simp [beq_eq_false_iff_ne.mpr hne])]
        exact hc0 p' hp' hpe'
      · intro s l hs'
        by_cases hs : s = p.1
        · subst hs
          rw [lookup_insert_self] at hs'
          have hl : lvl = l + 1 := by simpa using hs'
          refine ⟨p, hp, rfl, hpne, ?_, ?_⟩
          · intro dep hdep
            rw [hstable dep (hall dep hdep)]
            exact hall dep hdep
          · rw [filterMap_lookup_congr p.2
              (fun dep hdep => hstable dep (hall dep hdep))]
            rw [← hl, hlvl]
        · rw [lookup_cons, if_neg (by simp [beq_eq_false_iff_ne.mpr hs])] at hs'
          obtain ⟨p'', hp'', hpfst, hne'', halldeps, heq⟩ := hsp s l hs'
          refine ⟨p'', hp'', hpfst, hne'', ?_, ?_⟩
          · intro dep hdep
            rw [hstable dep (halldeps dep hdep)]
            exact halldeps dep hdep
          · rw [filterMap_lookup_congr p''.2
              (fun dep hdep => hstable dep (halldeps dep hdep))]
            exact heq

lemma levelsLoop_inv (ps : List (String × List String))
    (hnd : (ps.map Prod.fst).Nodup) :
    ∀ n st, levelsMu ps st ≤ n → LevelsInv ps st →
      LevelsInv ps (levelsLoop ps st) := by
  intro n
  induction n with
  | zero =>
    intro st hmu hinv
    rw [levelsLoop]
    split
    · exact hinv
    · rename_i id rest heq
      exfalso
      unfold levelsMu at hmu
      rw [heq, List.length_cons] at hmu
      omega
  | succ n ih =>
    intro st hmu hinv
    rw [levelsLoop]
    split
    · exact hinv
    · rename_i id rest heq
      apply ih
      · have h1 : levelsMu ps (levelsVisit ps id ⟨st.levels, st.level_map, rest⟩) ≤
            2 * unassignedCount ps st.level_map + rest.length := by
          simpa [levelsMu] using
            levelsVisit_mu_le ps id ⟨st.levels, st.level_map, rest⟩
        have h2 : 2 * unassignedCount ps st.level_map + (rest.length + 1) ≤ n + 1 := by
          have hq : levelsMu ps st =
              2 * unassignedCount ps st.level_map + (rest.length + 1) := by
            unfold levelsMu
            rw [heq, List.length_cons]
          rw [hq] at hmu
          exact hmu
        omega
      · exact levelsVisit_inv ps hnd id ⟨st.levels, st.level_map, rest⟩
          ⟨hinv.keys_nodup, hinv.flat_nodup, hinv.map_levels, hinv.sound0,
            hinv.complete0, hinv.soundPos⟩

lemma compute_levels_final_inv (beads : List BeadNode)
    (hnd : (beadIds beads).Nodup) :
    LevelsInv (bbPairs beads)
      (levelsLoop (bbPairs beads) (levelsSeed (bbPairs beads))) := by
  have hnd' : ((bbPairs beads).map Prod.fst).Nodup := by
    rw [bbPairs_fst]; exact hnd
  exact levelsLoop_inv _ hnd' (levelsMu _ _) _ le_rfl (levelsSeed_inv _ hnd')

lemma levelOf_eq_lookup (ps : List (String × List String)) (st : LevelsState)
    (hinv : LevelsInv ps st) (s : String) :
    levelOf st.levels s = st.level_map.lookup s := by
  unfold levelOf
  cases h : st.level_map.lookup s with
  | some l =>
    rcases (hinv.map_levels s l).mp h with ⟨e, he, h1, h2⟩
    cases hf : st.levels.find? (fun e => e.2.contains s) with
    | none =>
      exfalso
      have hno := List.find?_eq_none.mp hf e he
      simp [List.contains, List.elem_eq_mem, h2] at hno
    | some e' =>
      have hpe' : s ∈ e'.2 := by
        simpa [List.contains, List.elem_eq_mem] using List.find?_some hf
      have hsome := (hinv.map_levels s e'.1).mpr
        ⟨e', List.mem_of_find?_eq_some hf, rfl, hpe'⟩
      rw [h] at hsome
      have hle : e'.1 = l := by simpa using hsome.symm
      simp [hle]
  | none =>
    cases hf : st.levels.find? (fun e => e.2.contains s) with
    | none => simp
    | some e' =>
      exfalso
      have hpe' : s ∈ e'.2 := by
        simpa [List.contains, List.elem_eq_mem] using List.find?_some hf
      have hsome := (hinv.map_levels s e'.1).mpr
        ⟨e', List.mem_of_find?_eq_some hf, rfl, hpe'⟩
      rw [h] at hsome
      cases hsome

lemma mem_lookup_getD (L : List (Nat × List String))
    (hnd : (L.map Prod.fst).Nodup) (l : Nat) (s : String) :
    s ∈ ((L.lookup l).getD []) ↔ ∃ e ∈ L, e.1 = l ∧ s ∈ e.2 := by
  induction L with
  | nil => simp [List.lookup]
  | cons e L' ih =>
    obtain ⟨k, v⟩ := e
    have hnd1 : (k :: L'.map Prod.fst).Nodup := by
      simpa only [List.map_cons] using hnd
    have hkfresh := (List.nodup_cons.mp hnd1).1
    have hnd' := (List.nodup_cons.mp hnd1).2
    by_cases hkl : l = k
    · subst hkl
      rw [lookup_cons, if_pos (by simp)]
      simp only [Option.getD_some]
      constructor
      · intro hs
        exact ⟨(l, v), List.mem_cons_self _ _, rfl, hs⟩
      · rintro ⟨e', he', h1, h2⟩
        rcases List.mem_cons.mp he' with rfl | hmem
        · exact h2
        · exact absurd (h1 ▸ List.mem_map_of_mem Prod.fst hmem) hkfresh
    · rw [lookup_cons, if_neg (by simp [hkl]), ih hnd']
      constructor
      · rintro ⟨e', he', h1, h2⟩
        exact ⟨e', List.mem_cons_of_mem _ he', h1, h2⟩
      · rintro ⟨e', he', h1, h2⟩
        rcases List.mem_cons.mp he' with rfl | hmem
        · exact absurd h1.symm hkl
        · exact ⟨e', hmem, h1, h2⟩

lemma le_foldl_max (xs : List Nat) (a : Nat) : a ≤ xs.foldl Nat.max a := by
  induction xs generalizing a with
  | nil => exact Nat.le_refl a
  | cons x xs ih =>
    rw [List.foldl_cons]
    exact Nat.le_trans (Nat.le_max_left a x) (ih (Nat.max a x))

lemma foldl_max_ge_mem (xs : List Nat) (a : Nat) :
    ∀ x ∈ xs, x ≤ xs.foldl Nat.max a := by
  induction xs generalizing a with
  | nil => intro x hx; cases hx
  | cons y ys ih =>
    intro x hx
    rw [List.foldl_cons]
    rcases List.mem_cons.mp hx with rfl | hmem
    · exact Nat.le_trans (Nat.le_max_right a x) (le_foldl_max ys _)
    · exact ih _ x hmem

lemma foldl_max_mem (xs : List Nat) (a : Nat) :
    xs.foldl Nat.max a ∈ xs ∨ xs.foldl Nat.max a = a := by
  induction xs generalizing a with
  | nil => right; rfl
  | cons y ys ih =>
    rw [List.foldl_cons]
    rcases ih (Nat.max a y) with h | h
    · left; exact List.mem_cons_of_mem y h
    · rcases Nat.le_total a y with hay | hya
      · left
        have hmax : Nat.max a y = y := Nat.max_eq_right hay
        rw [h, hmax]
        exact List.mem_cons_self y ys
      · right
        have hmax : Nat.max a y = a := Nat.max_eq_left hya
        rw [h, hmax]

lemma mem_bbPairs (beads : List BeadNode) (b : BeadNode) (hb : b ∈ beads) :
    (b.id, b.blocked_by) ∈ bbPairs beads :=
  List.mem_map_of_mem (fun b => (b.id, b.blocked_by)) hb

/-- C3: the level-0 tier holds exactly the nodes with empty `blocked_by`;
every node appearing at a positive level has level one plus the maximum of
its blockers' assigned levels (all blockers being assigned); and a node one
of whose blockers receives no level receives no level itself (and no error
arises — the scheduler is a total function).  Stated under the data model's
id-uniqueness invariant (spec §3). -/
theorem compute_levels_spec (beads : List BeadNode)
    (hnd : (beadIds beads).Nodup) :
    (∀ id, id ∈ (((compute_levels_internal beads).lookup 0).getD []) ↔
        ∃ b ∈ beads, b.id = id ∧ b.blocked_by = []) ∧
    (∀ b ∈ beads, ∀ l, levelOf (compute_levels_internal beads) b.id = some l →
      0 < l →
        (∀ dep ∈ b.blocked_by,
          (levelOf (compute_levels_internal beads) dep).isSome = true) ∧
        ∃ M, l = M + 1 ∧
          (∃ dep ∈ b.blocked_by,
            levelOf (compute_levels_internal beads) dep = some M) ∧
          (∀ dep ∈ b.blocked_by, ∀ ld,
            levelOf (compute_levels_internal beads) dep = some ld → ld ≤ M)) ∧
    (∀ b ∈ beads, (∃ dep ∈ b.blocked_by,
        levelOf (compute_levels_internal beads) dep = none) →
      levelOf (compute_levels_internal beads) b.id = none) := by
  have hinv := compute_levels_final_inv beads hnd
  have hndbb : ((bbPairs beads).map Prod.fst).Nodup := by
    rw [bbPairs_fst]; exact hnd
  have hout : compute_levels_internal beads =
      (levelsLoop (bbPairs beads) (levelsSeed (bbPairs beads))).levels := rfl
  have hlev : ∀ s, levelOf (compute_levels_internal beads) s =
      (levelsLoop (bbPairs beads) (levelsSeed (bbPairs beads))).level_map.lookup s :=
    fun s => levelOf_eq_lookup _ _ hinv s
  refine ⟨?_, ?_, ?_⟩
  · intro id
    rw [hout, mem_lookup_getD _ hinv.keys_nodup 0 id]
    constructor
    · rintro ⟨e, he, h1, h2⟩
      have hsome := (hinv.map_levels id e.1).mpr ⟨e, he, rfl, h2⟩
      rw [h1] at hsome
      rcases hinv.sound0 id hsome with ⟨p, hpmem, hp1, hp2⟩
      rcases List.mem_map.mp hpmem with ⟨b, hb, hbp⟩
      refine ⟨b, hb, ?_, ?_⟩
      · rw [← hp1, ← hbp]
      · rw [← hp2, ← hbp]
    · rintro ⟨b, hb, rfl, hbe⟩
      have hsome := hinv.complete0 (b.id, b.blocked_by) (mem_bbPairs beads b hb)
        (by simpa using hbe)
      exact (hinv.map_levels b.id 0).mp hsome
  · intro b hb l hl hpos
    have hl' :
        (levelsLoop (bbPairs beads) (levelsSeed (bbPairs beads))).level_map.lookup
          b.id = some l := by
      rw [← hlev b.id]; exact hl
    obtain ⟨l', rfl⟩ : ∃ l', l = l' + 1 :=
      ⟨l - 1, (Nat.succ_pred_eq_of_pos hpos).symm⟩
    obtain ⟨p, hpmem, hp1, hpne, halldeps, heq⟩ := hinv.soundPos b.id l' hl'
    have hpb : p = (b.id, b.blocked_by) :=
      List.inj_on_of_nodup_map hndbb hpmem (mem_bbPairs beads b hb) (by rw [hp1])
    rw [hpb] at halldeps heq hpne
    simp only at halldeps heq
    constructor
    · intro dep hdep
      rw [hlev dep]
      exact halldeps dep hdep
    · refine ⟨(b.blocked_by.filterMap (fun dep =>
        (levelsLoop (bbPairs beads) (levelsSeed (bbPairs beads))).level_map.lookup
          dep)).foldl Nat.max 0, by omega, ?_, ?_⟩
      · have hbne : b.blocked_by ≠ [] := hpne
        obtain ⟨dep0, hdep0⟩ := List.exists_mem_of_ne_nil b.blocked_by hbne
        have hys_ne : b.blocked_by.filterMap (fun dep =>
            (levelsLoop (bbPairs beads) (levelsSeed (bbPairs beads))).level_map.lookup
              dep) ≠ [] := by
          intro hnil
          rcases Option.isSome_iff_exists.mp (halldeps dep0 hdep0) with ⟨v0, hv0⟩
          have : v0 ∈ b.blocked_by.filterMap (fun dep =>
              (levelsLoop (bbPairs beads) (levelsSeed (bbPairs beads))).level_map.lookup
                dep) := List.mem_filterMap.mpr ⟨dep0, hdep0, hv0⟩
          rw [hnil] at this
          cases this
        rcases foldl_max_mem (b.blocked_by.filterMap (fun dep =>
            (levelsLoop (bbPairs beads) (levelsSeed (bbPairs beads))).level_map.lookup
              dep)) 0 with hmem | h0
        · rcases List.mem_filterMap.mp hmem with ⟨dep, hdep, hdepl⟩
          exact ⟨dep, hdep, by rw [hlev dep]; exact hdepl⟩
        · obtain ⟨y, hy⟩ := List.exists_mem_of_ne_nil _ hys_ne
          have hyle := foldl_max_ge_mem _ 0 y hy
          rw [h0] at hyle
          have hy0 : y = 0 := Nat.le_zero.mp hyle
          rcases List.mem_filterMap.mp hy with ⟨dep, hdep, hdepl⟩
          refine ⟨dep, hdep, ?_⟩
          rw [hlev dep, h0, ← hy0]
          exact hdepl
      · intro dep hdep ld hld
        rw [hlev dep] at hld
        exact foldl_max_ge_mem _ 0 ld (List.mem_filterMap.mpr ⟨dep, hdep, hld⟩)
  · rintro b hb ⟨dep, hdep, hdepnone⟩
    cases hbl : levelOf (compute_levels_internal beads) b.id with
    | none => rfl
    | some l =>
      exfalso
      have hl' :
          (levelsLoop (bbPairs beads) (levelsSeed (bbPairs beads))).level_map.lookup
            b.id = some l := by
        rw [← hlev b.id]; exact hbl
      cases l with
      | zero =>
        obtain ⟨p, hpmem, hp1, hp2⟩ := hinv.sound0 b.id hl'
        have hpb : p = (b.id, b.blocked_by) :=
          List.inj_on_of_nodup_map hndbb hpmem (mem_bbPairs beads b hb) (by rw [hp1])
        rw [hpb] at hp2
        simp only at hp2
        rw [hp2] at hdep
        cases hdep
      | succ l' =>
        obtain ⟨p, hpmem, hp1, hpne, halldeps, heq⟩ := hinv.soundPos b.id l' hl'
        have hpb : p = (b.id, b.blocked_by) :=
          List.inj_on_of_nodup_map hndbb hpmem (mem_bbPairs beads b hb) (by rw [hp1])
        rw [hpb] at halldeps
        simp only at halldeps
        have := halldeps dep hdep
        rw [← hlev dep, hdepnone] at this
        cases this

/-- Witness for C3 at the sample input: `"a"` (the only record with empty
`blocked_by`) is in the level-0 tier. -/
theorem compute_levels_spec_witness :
    "a" ∈ (((compute_levels_internal sampleBeads).lookup 0).getD []) ↔
      ∃ b ∈ sampleBeads, b.id = "a" ∧ b.blocked_by = [] :=
  (compute_levels_spec sampleBeads (by decide)).1 "a"

/-- C10: with distinct input ids, the level tiers are pairwise disjoint and
duplicate-free: the concatenation of all tier lists has no duplicate id. -/
theorem compute_levels_tiers_disjoint (beads : List BeadNode)
    (hnd : (beadIds beads).Nodup) :
    ((compute_levels_internal beads).flatMap (fun e => e.2)).Nodup :=
  (compute_levels_final_inv beads hnd).flat_nodup

/-- Witness for C10 at the sample input. -/
theorem compute_levels_tiers_disjoint_witness :
    ((compute_levels_internal sampleBeads).flatMap (fun e => e.2)).Nodup :=
  compute_levels_tiers_disjoint sampleBeads (by decide)

/-! ## Cycle participant finder (`find_cycle_nodes_internal`, dag.rs lines
110-197)

The Rust code numbers the records 0..n-1, builds `id_to_index` (overwriting
`HashMap`, so the last record with an id wins) and `index_to_id` (index to
that record's id), builds an index-level adjacency list from each record's
`blocks` entries that are known ids, runs Tarjan's strongly-connected-
components algorithm with a recursive `strongconnect`, and returns the ids
of all vertices lying in an SCC with more than one member.  Only the `id`
and `blocks` fields are read.  The recursion is embedded with a fuel
parameter; each recursive call is made on an unvisited vertex which it
immediately marks, so recursion depth is bounded by the vertex count and a
fuel of `n` never runs out. -/

/-- The `(id, blocks)` projection of the records. -/
def blocksPairs (beads : List BeadNode) : List (String × List String) :=
  beads.map (fun b => (b.id, b.blocks))

/-- The adjacency list of the participant finder: successors of vertex `v`
are the mapped `blocks` targets of every record whose id maps to `v`
(records in input order, unknown ids dropped). -/
def cycleAdj (ps : List (String × List String)) (v : Nat) : List Nat :=
  ps.flatMap (fun p =>
    if (idIndexMapGo (ps.map Prod.fst) 0).lookup p.1 = some v then
      p.2.filterMap (fun blocked => (idIndexMapGo (ps.map Prod.fst) 0).lookup blocked)
    else [])

/-- The mutable state of Tarjan's algorithm (dag.rs lines 133-138). -/
structure TarjanSt where
  index : Nat
  indices : Nat → Option Nat
  lowlinks : Nat → Nat
  onStack : Nat → Bool
  stack : List Nat
  sccs : List (List Nat)

/-- Pointwise array update. -/
def updFn {β : Type} (f : Nat → β) (k : Nat) (v : β) : Nat → β :=
  fun x => if x = k then v else f x

/-- The pop loop closing an SCC (dag.rs lines 166-173): pop stack entries,
collecting them, until the root `v` (inclusive).  Returns the collected SCC
in pop order and the remaining stack. -/
def popUntil (v : Nat) : List Nat → List Nat × List Nat
  | [] => ([], [])
  | w :: rest =>
    if w = v then ([w], rest)
    else
      let p := popUntil v rest
      (w :: p.1, p.2)

/-- Entry to `strongconnect` (dag.rs lines 150-154): assign `v` its
discovery index and initial lowlink, bump the counter, push `v`. -/
def scPush (v : Nat) (st : TarjanSt) : TarjanSt :=
  { index := st.index + 1,
    indices := updFn st.indices v (some st.index),
    lowlinks := updFn st.lowlinks v st.index,
    onStack := updFn st.onStack v true,
    stack := v :: st.stack,
    sccs := st.sccs }

/-- Exit of `strongconnect` (dag.rs lines 165-175): when `v`'s lowlink still
equals its own index, pop the stack down to `v` as a new SCC.
(`indices[v].unwrap()` is modelled by `getD 0`; it is only evaluated after
`indices[v]` was set.) -/
def scClose (v : Nat) (st2 : TarjanSt) : TarjanSt :=
  if st2.lowlinks v = (st2.indices v).getD 0 then
    { st2 with
      stack := (popUntil v st2.stack).2,
      onStack := (popUntil v st2.stack).1.foldl
        (fun f w => updFn f w false) st2.onStack,
      sccs := st2.sccs ++ [(popUntil v st2.stack).1] }
  else st2

/-- `strongconnect` (dag.rs lines 140-176), with fuel standing in for the
call stack: after the entry step, walk `v`'s successors (dag.rs lines
156-163), recursing into unvisited ones and folding lowlinks, then run the
exit step. -/
def strongconnect (adj : Nat → List Nat) : Nat → Nat → TarjanSt → TarjanSt
  | 0, _, st => st
  | fuel + 1, v, st =>
    scClose v ((adj v).foldl
      (fun st' w =>
        if st'.indices w = none then
          let st'' := strongconnect adj fuel w st'
          { st'' with
            lowlinks := updFn st''.lowlinks v
              (Nat.min (st''.lowlinks v) (st''.lowlinks w)) }
        else if st'.onStack w then
          { st' with
            lowlinks := updFn st'.lowlinks v
              (Nat.min (st'.lowlinks v) ((st'.indices w).getD 0)) }
        else st')
      (scPush v st))

/-- The successor-loop body of `strongconnect` (dag.rs lines 156-163), at
recursion budget `fuel`. -/
def scStep (adj : Nat → List Nat) (fuel : Nat) (v : Nat) (st' : TarjanSt)
    (w : Nat) : TarjanSt :=
  if st'.indices w = none then
    let st'' := strongconnect adj fuel w st'
    { st'' with
      lowlinks := updFn st''.lowlinks v
        (Nat.min (st''.lowlinks v) (st''.lowlinks w)) }
  else if st'.onStack w then
    { st' with
      lowlinks := updFn st'.lowlinks v
        (Nat.min (st'.lowlinks v) ((st'.indices w).getD 0)) }
  else st'

lemma strongconnect_succ (adj : Nat → List Nat) (fuel v : Nat)
    (st : TarjanSt) :
    strongconnect adj (fuel + 1) v st =
      scClose v ((adj v).foldl (scStep adj fuel v) (scPush v st)) := rfl

/-- The root loop of Tarjan's algorithm (dag.rs lines 178-182). -/
def tarjanSccs (n : Nat) (adj : Nat → List Nat) : List (List Nat) :=
  ((List.range n).foldl
    (fun st v => if st.indices v = none then strongconnect adj n v st else st)
    ⟨0, fun _ => none, fun _ => 0, fun _ => false, [], []⟩).sccs

/-- `find_cycle_nodes_internal`: ids of the members of every SCC with more
than one vertex (dag.rs lines 184-196). -/
def find_cycle_nodes_internal (beads : List BeadNode) : List String :=
  ((tarjanSccs (blocksPairs beads).length (cycleAdj (blocksPairs beads))).filter
    (fun scc => 1 < scc.length)).flatMap
    (fun scc => scc.filterMap
      (fun idx => ((blocksPairs beads).map Prod.fst).get? idx))

/-! ## Per-operation field choice (C6) -/

/-- A `blocked_by` 2-cycle between `"a"` and `"b"` whose `blocks` fields are
all empty. -/
def cyc2Beads : List BeadNode :=
  [⟨"a", "A", "open", 0, ["b"], [], none⟩,
   ⟨"b", "B", "open", 0, ["a"], [], none⟩]

/-- `sampleBeads` with different titles and priorities (same `id`,
`blocked_by`, `blocks`). -/
def sampleBeadsAlt : List BeadNode :=
  [⟨"a", "first", "closed", 7, [], ["b"], some 3⟩,
   ⟨"b", "second", "open", 8, ["a"], ["c"], none⟩,
   ⟨"c", "third", "open", 9, ["b"], [], some 1⟩]

/-- C6: `has_cycle` is a function of the `(id, blocked_by)` projections
alone, `cycle_participants` of the `(id, blocks)` projections alone, and
`levels` of the `(id, blocked_by)` projections alone; and on an input whose
`blocked_by` fields encode a 2-cycle while all `blocks` fields are empty,
`has_cycle` reports a cycle while `cycle_participants` reports no
participant. -/
theorem operations_field_choice :
    (∀ b₁ b₂ : List BeadNode, bbPairs b₁ = bbPairs b₂ →
      has_cycle b₁ = has_cycle b₂) ∧
    (∀ b₁ b₂ : List BeadNode, blocksPairs b₁ = blocksPairs b₂ →
      find_cycle_nodes_internal b₁ = find_cycle_nodes_internal b₂) ∧
    (∀ b₁ b₂ : List BeadNode, bbPairs b₁ = bbPairs b₂ →
      compute_levels_internal b₁ = compute_levels_internal b₂) ∧
    has_cycle cyc2Beads = true ∧ find_cycle_nodes_internal cyc2Beads = [] := by
  refine ⟨?_, ?_, ?_, by decide, by decide⟩
  · intro b₁ b₂ h
    unfold has_cycle is_cyclic_directed build_graph
    simp only
    rw [h]
  · intro b₁ b₂ h
    unfold find_cycle_nodes_internal
    rw [h]
  · intro b₁ b₂ h
    unfold compute_levels_internal
    rw [h]

/-- Witness for C6: two inputs agreeing on ids and dependency fields but
differing in titles, priorities and durations get identical results, and the
2-cycle input separates the two cycle operations. -/
theorem operations_field_choice_witness :
    (has_cycle sampleBeads = has_cycle sampleBeadsAlt) ∧
    (find_cycle_nodes_internal sampleBeads = find_cycle_nodes_internal sampleBeadsAlt) ∧
    (compute_levels_internal sampleBeads = compute_levels_internal sampleBeadsAlt) ∧
    has_cycle cyc2Beads = true ∧ find_cycle_nodes_internal cyc2Beads = [] :=
  ⟨operations_field_choice.1 sampleBeads sampleBeadsAlt rfl,
   operations_field_choice.2.1 sampleBeads sampleBeadsAlt rfl,
   operations_field_choice.2.2.1 sampleBeads sampleBeadsAlt rfl,
   operations_field_choice.2.2.2.1,
   operations_field_choice.2.2.2.2⟩

/-! ## The public operations and input decoding (C8)

Each public operation (dag.rs lines 12-82) decodes its input with
`serde_json::from_str::<Vec<BeadNode>>`, maps a decode failure to a
`"Parse error: <cause>"` result, and otherwise runs its core on the decoded
records; `find_cycle_nodes`, `adjacency`, `ready` and `levels` then
serialize the computed value (serialization of a well-formed value cannot
fail).  `serde_json` and the `Deserialize` derive on `BeadNode` live outside
the provided sources. -/

/-- A structured JSON value (numbers modelled by `Int`; no algorithm of the
module computes with numeric fields). -/
inductive Json where
  | null : Json
  | bool (b : Bool) : Json
  | num (n : Int) : Json
  | str (s : String) : Json
  | arr (xs : List Json) : Json
  | obj (fields : List (String × Json)) : Json

/-- Modelled from the spec: decoding a required string field (missing field
or wrong type is a decode error). -/
def getStr (label : String) : Option Json → Except String String
  | some (Json.str s) => Except.ok s
  | some _ => Except.error ("invalid type for field " ++ label)
  | none => Except.error ("missing field " ++ label)

/-- Modelled from the spec: decoding the required integer `priority`. -/
def getInt (label : String) : Option Json → Except String Int
  | some (Json.num n) => Except.ok n
  | some _ => Except.error ("invalid type for field " ++ label)
  | none => Except.error ("missing field " ++ label)

/-- Modelled from the spec: decoding an array of strings, left to right. -/
def decodeStrs (label : String) : List Json → Except String (List String)
  | [] => Except.ok []
  | Json.str s :: rest => (decodeStrs label rest).map (fun ss => s :: ss)
  | _ :: _ => Except.error ("invalid type in array field " ++ label)

/-- Modelled from the spec: decoding a required array-of-strings field. -/
def getStrList (label : String) : Option Json → Except String (List String)
  | some (Json.arr xs) => decodeStrs label xs
  | some _ => Except.error ("invalid type for field " ++ label)
  | none => Except.error ("missing field " ++ label)

/-- Modelled from the spec: the optional numeric `duration` (omitted or null
decodes to `none`). -/
def getOptNum (label : String) : Option Json → Except String (Option Int)
  | none => Except.ok none
  | some Json.null => Except.ok none
  | some (Json.num n) => Except.ok (some n)
  | some _ => Except.error ("invalid type for field " ++ label)

/-- Modelled from the spec: the Node Record shape of §3 — required `id`,
`title`, `status` (strings), `priority` (number), `blocked_by`, `blocks`
(string arrays), optional numeric `duration`; anything else is a decode
error carrying a cause message. -/
def decodeBead (j : Json) : Except String BeadNode :=
  match j with
  | Json.obj fs => do
    let id ← getStr "id" (fs.lookup "id")
    let title ← getStr "title" (fs.lookup "title")
    let status ← getStr "status" (fs.lookup "status")
    let priority ← getInt "priority" (fs.lookup "priority")
    let blocked_by ← getStrList "blocked_by" (fs.lookup "blocked_by")
    let blocks ← getStrList "blocks" (fs.lookup "blocks")
    let duration ← getOptNum "duration" (fs.lookup "duration")
    Except.ok ⟨id, title, status, priority, blocked_by, blocks, duration⟩
  | _ => Except.error "invalid type: expected object"

/-- Decode a list of records left to right, failing on the first bad one. -/
def decodeBeadList : List Json → Except String (List BeadNode)
  | [] => Except.ok []
  | j :: rest => do
    let b ← decodeBead j
    let bs ← decodeBeadList rest
    Except.ok (b :: bs)

/-- Modelled from the spec: `serde_json::from_str::<Vec<BeadNode>>` on an
already-lexed JSON value. -/
def decodeBeads : Json → Except String (List BeadNode)
  | Json.arr xs => decodeBeadList xs
  | _ => Except.error "invalid type: expected array of records"

/-- `has_cycle_impl` (dag.rs lines 12-18). -/
def has_cycle_impl (j : Json) : Except String Bool :=
  match decodeBeads j with
  | Except.error e => Except.error ("Parse error: " ++ e)
  | Except.ok beads => Except.ok (has_cycle beads)

/-- `find_cycle_nodes_impl` (dag.rs lines 21-29). -/
def find_cycle_nodes_impl (j : Json) : Except String (List String) :=
  match decodeBeads j with
  | Except.error e => Except.error ("Parse error: " ++ e)
  | Except.ok beads => Except.ok (find_cycle_nodes_internal beads)

/-- `build_adjacency_impl` (dag.rs lines 32-49). -/
def build_adjacency_impl (j : Json) : Except String (List (String × List String)) :=
  match decodeBeads j with
  | Except.error e => Except.error ("Parse error: " ++ e)
  | Except.ok beads => Except.ok (build_adjacency beads)

/-- `get_ready_beads_impl` (dag.rs lines 52-71). -/
def get_ready_beads_impl (j : Json) : Except String (List String) :=
  match decodeBeads j with
  | Except.error e => Except.error ("Parse error: " ++ e)
  | Except.ok beads => Except.ok (getReadyBeads beads)

/-- `compute_levels_impl` (dag.rs lines 74-82). -/
def compute_levels_impl (j : Json) : Except String (List (Nat × List String)) :=
  match decodeBeads j with
  | Except.error e => Except.error ("Parse error: " ++ e)
  | Except.ok beads => Except.ok (compute_levels_internal beads)

/-- C8: for every input, all five operations fail exactly when decoding the
input as an array of Node Records fails, each returning the decode cause
prefixed by `"Parse error: "` and producing no result; and on every input
that decodes, every operation succeeds (no decode failure is returned). -/
theorem operations_decode_errors (j : Json) :
    (∀ e, decodeBeads j = Except.error e →
      has_cycle_impl j = Except.error ("Parse error: " ++ e) ∧
      find_cycle_nodes_impl j = Except.error ("Parse error: " ++ e) ∧
      build_adjacency_impl j = Except.error ("Parse error: " ++ e) ∧
      get_ready_beads_impl j = Except.error ("Parse error: " ++ e) ∧
      compute_levels_impl j = Except.error ("Parse error: " ++ e)) ∧
    (∀ beads, decodeBeads j = Except.ok beads →
      has_cycle_impl j = Except.ok (has_cycle beads) ∧
      find_cycle_nodes_impl j = Except.ok (find_cycle_nodes_internal beads) ∧
      build_adjacency_impl j = Except.ok (build_adjacency beads) ∧
      get_ready_beads_impl j = Except.ok (getReadyBeads beads) ∧
      compute_levels_impl j = Except.ok (compute_levels_internal beads)) := by
  constructor
  · intro e he
    refine ⟨?_, ?_, ?_, ?_, ?_⟩ <;>
      simp [has_cycle_impl, find_cycle_nodes_impl, build_adjacency_impl,
        get_ready_beads_impl, compute_levels_impl, he]
  · intro beads hb
    refine ⟨?_, ?_, ?_, ?_, ?_⟩ <;>
      simp [has_cycle_impl, find_cycle_nodes_impl, build_adjacency_impl,
        get_ready_beads_impl, compute_levels_impl, hb]

/-- Witness for C8: a non-array input fails every operation with the decode
cause, and the empty array decodes and succeeds everywhere. -/
theorem operations_decode_errors_witness :
    has_cycle_impl Json.null =
      Except.error ("Parse error: " ++ "invalid type: expected array of records") ∧
    get_ready_beads_impl (Json.arr []) = Except.ok (getReadyBeads []) :=
  ⟨((operations_decode_errors Json.null).1
      "invalid type: expected array of records" rfl).1,
   ((operations_decode_errors (Json.arr [])).2 [] rfl).2.2.2.1⟩

/-! ## Correctness of the Tarjan embedding (towards C1)

The development fixes an adjacency function `adj` and a vertex count `n`
(all edge targets below `n`) and proves that `tarjanSccs n adj` outputs
exactly the strongly-connected components of the step relation
`fun a b => b ∈ adj a` on the vertices `0..n-1`: every vertex lies in
exactly one output component, and a vertex shares a component with exactly
the vertices it can reach and be reached from. -/

section TarjanProof

variable (adj : Nat → List Nat) (n : Nat)

/-- The step relation of the adjacency function. -/
def stepAdj (a b : Nat) : Prop := b ∈ adj a

/-- Discovery index of a vertex (0 when unvisited; only read on visited
vertices). -/
def idxO (st : TarjanSt) (u : Nat) : Nat := (st.indices u).getD 0

/-- Members of all completed components. -/
def flatSccs (st : TarjanSt) : List Nat := st.sccs.flatMap (fun S => S)

/-- Number of unvisited vertices. -/
def unvisitedN (st : TarjanSt) : Nat :=
  ((List.range n).filter (fun u => !(st.indices u).isSome)).length

/-- The state invariant of the embedded Tarjan algorithm, with the current
DFS path `G` (outermost last is irrelevant; only membership is used) as
ghost data. -/
structure TWF (G : List Nat) (st : TarjanSt) : Prop where
  onStack_iff : ∀ u, st.onStack u = true ↔ u ∈ st.stack
  disj : (flatSccs st ++ st.stack).Nodup
  visited_iff : ∀ u, (st.indices u).isSome = true ↔
    (u ∈ flatSccs st ∨ u ∈ st.stack)
  idx_lt : ∀ u i, st.indices u = some i → i < st.index
  idx_inj : ∀ u w i, st.indices u = some i → st.indices w = some i → u = w
  stack_sorted : List.Pairwise (fun a b => idxO st b < idxO st a) st.stack
  stack_reach : ∀ u ∈ st.stack, ∀ w ∈ st.stack, idxO st u ≤ idxO st w →
    Relation.ReflTransGen (stepAdj adj) u w
  low_le : ∀ u ∈ st.stack, st.lowlinks u ≤ idxO st u
  low_target : ∀ u ∈ st.stack, ∃ t ∈ st.stack,
    idxO st t = st.lowlinks u ∧ Relation.ReflTransGen (stepAdj adj) u t
  sccs_correct : ∀ S ∈ st.sccs, ∀ v ∈ S, ∀ w, w ∈ S ↔
    (Relation.ReflTransGen (stepAdj adj) v w ∧
      Relation.ReflTransGen (stepAdj adj) w v)
  visited_lt : ∀ u, (st.indices u).isSome = true → u < n
  grays_sub : ∀ g ∈ G, g ∈ st.stack
  fin_low : ∀ u ∈ st.stack, u ∉ G → st.lowlinks u < idxO st u
  fin_explored : ∀ u, (st.indices u).isSome = true → u ∉ G →
    ∀ w ∈ adj u, (st.indices w).isSome = true
  back_low : ∀ u, (st.indices u).isSome = true → u ∉ G →
    ∀ w ∈ adj u, w ∈ st.stack → st.lowlinks u ≤ idxO st w
  closed_sccs : ∀ u ∈ flatSccs st, ∀ w ∈ adj u, w ∈ flatSccs st

/-- The postcondition of `strongconnect v`: monotone extension, the new
visits are exactly the reachable-from-`v` vertices, untouched data of old
vertices, the lowlink propagation bound for new stack entries, and the
root/non-root dichotomy. -/
structure TPost (v : Nat) (st st' : TarjanSt) : Prop where
  pres_idx : ∀ u i, st.indices u = some i → st'.indices u = some i
  index_mono : st.index ≤ st'.index
  sccs_ext : ∃ L, st'.sccs = st.sccs ++ L
  stack_ext : ∃ NEW, st'.stack = NEW ++ st.stack ∧
    ∀ u ∈ NEW, st.indices u = none
  v_visited : st'.indices v = some st.index
  visited_src : ∀ u, (st'.indices u).isSome = true →
    (st.indices u).isSome = true ∨ Relation.ReflTransGen (stepAdj adj) v u
  low_pres : ∀ u, (st.indices u).isSome = true → st'.lowlinks u = st.lowlinks u
  new_idx_ge : ∀ u i, st'.indices u = some i → st.indices u = none →
    st.index ≤ i
  prop_low : ∀ u ∈ st'.stack, st.indices u = none →
    st'.lowlinks v ≤ st'.lowlinks u
  dichotomy : (st'.stack = st.stack ∧ st'.lowlinks v = st.index ∧
      v ∈ flatSccs st' ∧
      (∀ u, Relation.ReflTransGen (stepAdj adj) v u →
        (st'.indices u).isSome = true)) ∨
    (v ∈ st'.stack ∧ st'.lowlinks v < st.index)

/-- The precondition of `strongconnect v` with ghost path `G`. -/
def TPre (G : List Nat) (v : Nat) (fuel : Nat) (st : TarjanSt) : Prop :=
  TWF adj n G st ∧ st.indices v = none ∧ v < n ∧
    (∀ u ∈ st.stack, Relation.ReflTransGen (stepAdj adj) u v) ∧
    unvisitedN n st ≤ fuel

end TarjanProof

/-! ### Small helper lemmas for the Tarjan proof -/

lemma updFn_same {β : Type} (f : Nat → β) (k : Nat) (v : β) :
    updFn f k v k = v := by
  simp [updFn]

lemma updFn_other {β : Type} (f : Nat → β) (k : Nat) (v : β) {x : Nat}
    (h : x ≠ k) : updFn f k v x = f x := by
  simp [updFn, h]

lemma popUntil_split (v : Nat) (pre rest : List Nat) (hpre : v ∉ pre) :
    popUntil v (pre ++ v :: rest) = (pre ++ [v], rest) := by
  induction pre with
  | nil => simp [popUntil]
  | cons a pre ih =>
    have hav : a ≠ v := fun h => hpre (h ▸ List.mem_cons_self a pre)
    have hpre' : v ∉ pre := fun h => hpre (List.mem_cons_of_mem a h)
    simp only [List.cons_append, popUntil, if_neg hav]
    rw [show pre.append (v :: rest) = pre ++ v :: rest from rfl, ih hpre']

lemma foldl_updFn_false (P : List Nat) (F : Nat → Bool) (x : Nat) :
    (P.foldl (fun f w => updFn f w false) F) x =
      if x ∈ P then false else F x := by
  induction P generalizing F with
  | nil => simp
  | cons a P ih =>
    rw [List.foldl_cons, ih]
    by_cases hx : x ∈ P
    · rw [if_pos hx, if_pos (List.mem_cons_of_mem a hx)]
    · rw [if_neg hx]
      by_cases hxa : x = a
      · subst hxa
        rw [if_pos (List.mem_cons_self x P), updFn_same]
      · rw [if_neg (by simp [hxa, hx]), updFn_other _ _ _ hxa]

lemma filter_length_le {γ : Type} (l : List γ) (p q : γ → Bool)
    (h : ∀ x ∈ l, q x = true → p x = true) :
    (l.filter q).length ≤ (l.filter p).length := by
  induction l with
  | nil => simp
  | cons a t ih =>
    have iht := ih (fun x hx => h x (List.mem_cons_of_mem a hx))
    rw [List.filter_cons, List.filter_cons]
    cases hq : q a
    · cases p a <;> simp <;> omega
    · rw [h a (List.mem_cons_self a t) hq]
      simpa using iht

lemma filter_length_flip_nat {l : List Nat} (hnd : l.Nodup) {k : Nat}
    (hk : k ∈ l) {p q : Nat → Bool} (hpq : ∀ s, s ≠ k → q s = p s)
    (hp : p k = true) (hq : q k = false) :
    (l.filter q).length + 1 = (l.filter p).length := by
  induction l with
  | nil => cases hk
  | cons a t ih =>
    rcases List.mem_cons.mp hk with rfl | hkt
    · rw [List.filter_cons, List.filter_cons, hp, hq]
      have ha : t.filter q = t.filter p := by
        apply List.filter_congr
        intro s hs
        apply hpq
        intro hsk
        subst hsk
        exact (List.nodup_cons.mp hnd).1 hs
      simp [ha]
    · have hak : a ≠ k := fun h => (List.nodup_cons.mp hnd).1 (h ▸ hkt)
      have iht := ih (List.nodup_cons.mp hnd).2 hkt
      rw [List.filter_cons, List.filter_cons, hpq a hak]
      cases hpa : p a
      · rw [if_neg (by simp), if_neg (by simp)]
        omega
      · rw [if_pos rfl, if_pos rfl]
        simp only [List.length_cons]
        omega

section TarjanProof2

variable (adj : Nat → List Nat) (n : Nat)

lemma unvisited_pos (st : TarjanSt) (v : Nat) (hv : st.indices v = none)
    (hn : v < n) : 1 ≤ unvisitedN n st := by
  have hmem : v ∈ (List.range n).filter (fun u => !(st.indices u).isSome) :=
    List.mem_filter.mpr ⟨List.mem_range.mpr hn, by simp [hv]⟩
  have := List.length_pos.mpr (List.ne_nil_of_mem hmem)
  unfold unvisitedN
  omega

lemma unvisited_mark (st : TarjanSt) (v : Nat) (i : Nat)
    (hv : st.indices v = none) (hn : v < n) :
    unvisitedN n
      { st with indices := updFn st.indices v (some i) } + 1 =
    unvisitedN n st := by
  unfold unvisitedN
  apply filter_length_flip_nat (List.nodup_range n) (List.mem_range.mpr hn)
  · intro s hsk
    simp only
    rw [updFn_other _ _ _ hsk]
  · simp [hv]
  · simp [updFn_same]

lemma unvisited_mono (st st' : TarjanSt)
    (h : ∀ u i, st.indices u = some i → st'.indices u = some i) :
    unvisitedN n st' ≤ unvisitedN n st := by
  unfold unvisitedN
  apply filter_length_le
  intro x _ hq
  simp only [Bool.not_eq_true'] at hq ⊢
  cases ho : st.indices x with
  | none => rfl
  | some i =>
    have := h x i ho
    rw [this] at hq
    cases hq

/-- The descending-lowlink chain argument: on a stack where every vertex
with index above `I` has a strictly smaller lowlink pointing at a reachable
stack vertex, and every vertex with index below `I` reaches `v` (the stack
vertex at index `I`), every stack vertex reaches `v`. -/
lemma stack_reach_v (st' : TarjanSt) (I : Nat) (v : Nat)
    (hv : v ∈ st'.stack) (hvI : idxO st' v = I)
    (hbase : ∀ u ∈ st'.stack, idxO st' u < I →
      Relation.ReflTransGen (stepAdj adj) u v)
    (hdesc : ∀ u ∈ st'.stack, I < idxO st' u → st'.lowlinks u < idxO st' u)
    (htarget : ∀ u ∈ st'.stack, ∃ t ∈ st'.stack,
      idxO st' t = st'.lowlinks u ∧ Relation.ReflTransGen (stepAdj adj) u t)
    (hinj : ∀ u ∈ st'.stack, ∀ w ∈ st'.stack, idxO st' u = idxO st' w → u = w) :
    ∀ u ∈ st'.stack, Relation.ReflTransGen (stepAdj adj) u v := by
  have main : ∀ k, ∀ u ∈ st'.stack, idxO st' u = k →
      Relation.ReflTransGen (stepAdj adj) u v := by
    intro k
    induction k using Nat.strong_induction_on with
    | _ k ih =>
      intro u hu hk
      rcases Nat.lt_trichotomy k I with hlt | heq | hgt
      · exact hbase u hu (hk ▸ hlt)
      · have : u = v := hinj u hu v hv (by rw [hk, heq, hvI])
        subst this
        exact Relation.ReflTransGen.refl
      · have hlow : st'.lowlinks u < idxO st' u := hdesc u hu (by omega)
        obtain ⟨t, ht, htid, hreach⟩ := htarget u hu
        have htlt : idxO st' t < k := by omega
        exact hreach.trans (ih (idxO st' t) htlt t ht rfl)
  exact fun u hu => main (idxO st' u) u hu rfl

/-- The invariant of the successor loop of `strongconnect v`: `st` is the
state at the call, `processed` the prefix of `adj v` already folded, `st'`
the current state. -/
structure LInv (G : List Nat) (v : Nat) (st : TarjanSt) (fuel : Nat)
    (processed : List Nat) (st' : TarjanSt) : Prop where
  wf : TWF adj n (v :: G) st'
  pres_idx : ∀ u i, st.indices u = some i → st'.indices u = some i
  index_mono : st.index + 1 ≤ st'.index
  sccs_ext : ∃ L, st'.sccs = st.sccs ++ L
  stack_ext : ∃ NEW, st'.stack = NEW ++ v :: st.stack ∧
    ∀ u ∈ NEW, st.indices u = none ∧ u ≠ v
  v_idx : st'.indices v = some st.index
  low_pres : ∀ u, (st.indices u).isSome = true →
    st'.lowlinks u = st.lowlinks u
  new_idx_ge : ∀ u i, st'.indices u = some i → st.indices u = none →
    st.index ≤ i
  visited_src : ∀ u, (st'.indices u).isSome = true →
    (st.indices u).isSome = true ∨ Relation.ReflTransGen (stepAdj adj) v u
  prop : ∀ u ∈ st'.stack, st.indices u = none → u ≠ v →
    st'.lowlinks v ≤ st'.lowlinks u
  explored : ∀ w' ∈ processed, (st'.indices w').isSome = true
  vtargets : ∀ w' ∈ processed, w' ∈ st'.stack →
    st'.lowlinks v ≤ idxO st' w'
  unvis : unvisitedN n st' ≤ fuel

lemma twf_stack_visited {G : List Nat} {st : TarjanSt} (h : TWF adj n G st) :
    ∀ u ∈ st.stack, (st.indices u).isSome = true :=
  fun u hu => (h.visited_iff u).mpr (Or.inr hu)

lemma twf_flat_visited {G : List Nat} {st : TarjanSt} (h : TWF adj n G st) :
    ∀ u ∈ flatSccs st, (st.indices u).isSome = true :=
  fun u hu => (h.visited_iff u).mpr (Or.inl hu)

lemma twf_stack_not_flat {G : List Nat} {st : TarjanSt} (h : TWF adj n G st) :
    ∀ u ∈ st.stack, u ∉ flatSccs st :=
  fun u hu hf => (List.disjoint_of_nodup_append h.disj) hf hu

lemma twf_stack_idx_lt {G : List Nat} {st : TarjanSt} (h : TWF adj n G st) :
    ∀ u ∈ st.stack, idxO st u < st.index := by
  intro u hu
  rcases Option.isSome_iff_exists.mp (twf_stack_visited adj n h u hu) with ⟨i, hi⟩
  have := h.idx_lt u i hi
  simp [idxO, hi]
  omega

lemma unvisitedN_congr (st st' : TarjanSt) (h : st.indices = st'.indices) :
    unvisitedN n st = unvisitedN n st' := by
  unfold unvisitedN
  rw [h]

lemma LInv_init (G : List Nat) (v : Nat) (st : TarjanSt) (fuel : Nat)
    (hwf : TWF adj n G st) (hv : st.indices v = none) (hvn : v < n)
    (hp4 : ∀ u ∈ st.stack, Relation.ReflTransGen (stepAdj adj) u v)
    (hfuel : unvisitedN n st ≤ fuel + 1) :
    LInv adj n G v st fuel [] (scPush v st) := by
  have hvnotstack : v ∉ st.stack := by
    intro h
    have := twf_stack_visited adj n hwf v h
    rw [hv] at this
    cases this
  have hvnotflat : v ∉ flatSccs st := by
    intro h
    have := twf_flat_visited adj n hwf v h
    rw [hv] at this
    cases this
  have hidx_other : ∀ u, u ≠ v → (scPush v st).indices u = st.indices u :=
    fun u hu => updFn_other _ _ _ hu
  have hidxO_other : ∀ u, u ≠ v → idxO (scPush v st) u = idxO st u := by
    intro u hu
    unfold idxO
    rw [hidx_other u hu]
  have hidxO_v : idxO (scPush v st) v = st.index := by
    unfold idxO scPush
    simp [updFn_same]
  have hlow_other : ∀ u, u ≠ v → (scPush v st).lowlinks u = st.lowlinks u :=
    fun u hu => updFn_other _ _ _ hu
  have hstack_lt := twf_stack_idx_lt adj n hwf
  have hne_of_stack : ∀ u ∈ st.stack, u ≠ v :=
    fun u hu he => hvnotstack (he ▸ hu)
  refine ⟨?wf, ?pres, ?imono, ⟨[], by simp [scPush]⟩,
    ⟨[], by simp [scPush], fun u h => absurd h (List.not_mem_nil u)⟩,
    by simp [scPush, updFn_same], ?lowpres, ?newidx, ?vsrc, ?prop,
    fun w' h => absurd h (List.not_mem_nil w'),
    fun w' h => absurd h (List.not_mem_nil w'), ?unvis⟩
  case pres =>
    intro u i h
    have huv : u ≠ v := by
      intro he
      rw [he, hv] at h
      cases h
    rw [show (scPush v st).indices u = st.indices u from hidx_other u huv, h]
  case imono => exact Nat.le_refl _
  case lowpres =>
    intro u hu
    apply hlow_other
    intro he
    rw [he, hv] at hu
    cases hu
  case newidx =>
    intro u i hsome hnone
    by_cases huv : u = v
    · have h1 : (scPush v st).indices v = some st.index := by
        simp [scPush, updFn_same]
      rw [huv, h1] at hsome
      have : st.index = i := by simpa using hsome
      omega
    · rw [hidx_other u huv, hnone] at hsome
      cases hsome
  case vsrc =>
    intro u hu
    by_cases huv : u = v
    · exact Or.inr (huv ▸ Relation.ReflTransGen.refl)
    · rw [hidx_other u huv] at hu
      exact Or.inl hu
  case prop =>
    intro u hu hnone hne
    exfalso
    have hu' : u ∈ st.stack := by
      have : (scPush v st).stack = v :: st.stack := rfl
      rw [this] at hu
      rcases List.mem_cons.mp hu with he | hm
      · exact absurd he hne
      · exact hm
    have := twf_stack_visited adj n hwf u hu'
    rw [hnone] at this
    cases this
  case unvis =>
    have hmark := unvisited_mark n st v st.index hv hvn
    have hcongr : unvisitedN n (scPush v st) =
        unvisitedN n { st with indices := updFn st.indices v (some st.index) } :=
      unvisitedN_congr n _ _ rfl
    omega
  case wf =>
    refine ⟨?_, ?_, ?_, ?_, ?_, ?_, ?_, ?_, ?_, ?_, ?_, ?_, ?_, ?_, ?_, ?_⟩
    · intro u
      by_cases huv : u = v
      · subst huv
        simp [scPush, updFn_same]
      · have h1 : (scPush v st).onStack u = st.onStack u := updFn_other _ _ _ huv
        have h2 : (scPush v st).stack = v :: st.stack := rfl
        rw [h1, h2, hwf.onStack_iff u]
        simp [List.mem_cons, huv]
    · have hfl : flatSccs (scPush v st) = flatSccs st := rfl
      have hst : (scPush v st).stack = v :: st.stack := rfl
      rw [hfl, hst, List.nodup_middle]
      constructor
      · intro a ha hva
        subst hva
        rcases List.mem_append.mp ha with h | h
        · exact hvnotflat h
        · exact hvnotstack h
      · exact hwf.disj
    · intro u
      by_cases huv : u = v
      · subst huv
        constructor
        · intro _
          exact Or.inr (List.mem_cons_self _ _)
        · intro _
          simp [scPush, updFn_same]
      · rw [hidx_other u huv]
        rw [hwf.visited_iff u]
        have hfl : flatSccs (scPush v st) = flatSccs st := rfl
        rw [hfl]
        simp [scPush, List.mem_cons, huv]
    · intro u i h
      by_cases huv : u = v
      · have h1 : (scPush v st).indices v = some st.index := by
          simp [scPush, updFn_same]
        rw [huv, h1] at h
        have : st.index = i := by simpa using h
        have hidx : (scPush v st).index = st.index + 1 := rfl
        omega
      · rw [hidx_other u huv] at h
        have := hwf.idx_lt u i h
        have hidx : (scPush v st).index = st.index + 1 := rfl
        omega
    · intro u w i hu hw
      by_cases huv : u = v <;> by_cases hwv : w = v
      · rw [huv, hwv]
      · exfalso
        have h1 : (scPush v st).indices v = some st.index := by
          simp [scPush, updFn_same]
        rw [huv, h1] at hu
        have hi : st.index = i := by simpa using hu
        rw [hidx_other w hwv] at hw
        have := hwf.idx_lt w i hw
        omega
      · exfalso
        have h1 : (scPush v st).indices v = some st.index := by
          simp [scPush, updFn_same]
        rw [hwv, h1] at hw
        have hi : st.index = i := by simpa using hw
        rw [hidx_other u huv] at hu
        have := hwf.idx_lt u i hu
        omega
      · rw [hidx_other u huv] at hu
        rw [hidx_other w hwv] at hw
        exact hwf.idx_inj u w i hu hw
    · have hst : (scPush v st).stack = v :: st.stack := rfl
      rw [hst, List.pairwise_cons]
      constructor
      · intro u hu
        rw [hidxO_v, hidxO_other u (hne_of_stack u hu)]
        exact hstack_lt u hu
      · apply List.Pairwise.imp_of_mem ?_ hwf.stack_sorted
        intro a b ha hb hab
        rw [hidxO_other a (hne_of_stack a ha), hidxO_other b (hne_of_stack b hb)]
        exact hab
    · intro u hu w hw hle
      have hst : (scPush v st).stack = v :: st.stack := rfl
      rw [hst] at hu hw
      rcases List.mem_cons.mp hu with he1 | hus <;>
        rcases List.mem_cons.mp hw with he2 | hws
      · rw [he1, he2]
      · exfalso
        rw [he1, hidxO_v, hidxO_other w (hne_of_stack w hws)] at hle
        have := hstack_lt w hws
        omega
      · rw [he2]
        exact hp4 u hus
      · rw [hidxO_other u (hne_of_stack u hus),
          hidxO_other w (hne_of_stack w hws)] at hle
        exact hwf.stack_reach u hus w hws hle
    · intro u hu
      have hst : (scPush v st).stack = v :: st.stack := rfl
      rw [hst] at hu
      rcases List.mem_cons.mp hu with he | hus
      · have hl : (scPush v st).lowlinks v = st.index := by
          simp [scPush, updFn_same]
        rw [he, hl, hidxO_v]
      · rw [hidxO_other u (hne_of_stack u hus), hlow_other u (hne_of_stack u hus)]
        exact hwf.low_le u hus
    · intro u hu
      have hst : (scPush v st).stack = v :: st.stack := rfl
      rw [hst] at hu
      rcases List.mem_cons.mp hu with he | hus
      · refine ⟨v, by rw [hst]; exact List.mem_cons_self _ _, ?_, ?_⟩
        · rw [he, hidxO_v]
          simp [scPush, updFn_same]
        · rw [he]
      · obtain ⟨t, ht, hid, hr⟩ := hwf.low_target u hus
        refine ⟨t, by rw [hst]; exact List.mem_cons_of_mem v ht, ?_, hr⟩
        rw [hidxO_other t (hne_of_stack t ht), hlow_other u (hne_of_stack u hus)]
        exact hid
    · exact hwf.sccs_correct
    · intro u hu
      by_cases huv : u = v
      · exact huv ▸ hvn
      · rw [hidx_other u huv] at hu
        exact hwf.visited_lt u hu
    · intro g hg
      have hst : (scPush v st).stack = v :: st.stack := rfl
      rw [hst]
      rcases List.mem_cons.mp hg with rfl | hgm
      · exact List.mem_cons_self _ _
      · exact List.mem_cons_of_mem v (hwf.grays_sub g hgm)
    · intro u hu hG
      have huv : u ≠ v := fun he => hG (he ▸ List.mem_cons_self v G)
      have hst : (scPush v st).stack = v :: st.stack := rfl
      rw [hst] at hu
      rcases List.mem_cons.mp hu with he | hus
      · exact absurd he huv
      · have hG' : u ∉ G := fun h => hG (List.mem_cons_of_mem v h)
        rw [hlow_other u huv, hidxO_other u huv]
        exact hwf.fin_low u hus hG'
    · intro u hu hG w hw
      have huv : u ≠ v := fun he => hG (he ▸ List.mem_cons_self v G)
      have hG' : u ∉ G := fun h => hG (List.mem_cons_of_mem v h)
      rw [hidx_other u huv] at hu
      have := hwf.fin_explored u hu hG' w hw
      by_cases hwv : w = v
      · rw [hwv, hv] at this
        cases this
      · rw [hidx_other w hwv]
        exact this
    · intro u hu hG w hw hws
      have huv : u ≠ v := fun he => hG (he ▸ List.mem_cons_self v G)
      have hG' : u ∉ G := fun h => hG (List.mem_cons_of_mem v h)
      rw [hidx_other u huv] at hu
      have hst : (scPush v st).stack = v :: st.stack := rfl
      rw [hst] at hws
      rcases List.mem_cons.mp hws with rfl | hwss
      · exfalso
        have := hwf.fin_explored u hu hG' w hw
        rw [hv] at this
        cases this
      · rw [hlow_other u huv, hidxO_other w (hne_of_stack w hwss)]
        exact hwf.back_low u hu hG' w hw hwss
    · exact hwf.closed_sccs

lemma twf_idxO_inj {G : List Nat} {st : TarjanSt} (h : TWF adj n G st) :
    ∀ u ∈ st.stack, ∀ w ∈ st.stack, idxO st u = idxO st w → u = w := by
  intro u hu w hw he
  rcases Option.isSome_iff_exists.mp (twf_stack_visited adj n h u hu) with ⟨i, hi⟩
  rcases Option.isSome_iff_exists.mp (twf_stack_visited adj n h w hw) with ⟨j, hj⟩
  have hij : i = j := by
    unfold idxO at he
    rw [hi, hj] at he
    simpa using he
  exact h.idx_inj u w i hi (hij ▸ hj)

lemma LInv_reach_v (G : List Nat) (v : Nat) (st : TarjanSt) (fuel : Nat)
    (processed : List Nat) (st' : TarjanSt)
    (hwf0 : TWF adj n G st)
    (hp4 : ∀ u ∈ st.stack, Relation.ReflTransGen (stepAdj adj) u v)
    (hinv : LInv adj n G v st fuel processed st') :
    ∀ u ∈ st'.stack, Relation.ReflTransGen (stepAdj adj) u v := by
  obtain ⟨NEW, hstk, hnew⟩ := hinv.stack_ext
  have hvmem : v ∈ st'.stack := by
    rw [hstk]
    exact List.mem_append_right NEW (List.mem_cons_self _ _)
  have hvI : idxO st' v = st.index := by
    unfold idxO
    rw [hinv.v_idx]
    rfl
  apply stack_reach_v adj st' st.index v hvmem hvI
  · intro u hu hlt
    rw [hstk] at hu
    rcases List.mem_append.mp hu with hN | hc
    · exfalso
      rcases Option.isSome_iff_exists.mp
        (twf_stack_visited adj n hinv.wf u (by rw [hstk]; exact List.mem_append_left _ hN)) with ⟨i, hi⟩
      have hge := hinv.new_idx_ge u i hi (hnew u hN).1
      unfold idxO at hlt
      rw [hi] at hlt
      simp at hlt
      omega
    · rcases List.mem_cons.mp hc with he | hs
      · exfalso
        rw [he, hvI] at hlt
        omega
      · exact hp4 u hs
  · intro u hu hgt
    apply hinv.wf.fin_low u hu
    intro hmem
    rcases List.mem_cons.mp hmem with he | hG
    · rw [he, hvI] at hgt
      omega
    · have hgs : u ∈ st.stack := hwf0.grays_sub u hG
      rcases Option.isSome_iff_exists.mp (twf_stack_visited adj n hwf0 u hgs) with ⟨i, hi⟩
      have hlt0 := hwf0.idx_lt u i hi
      have hi' := hinv.pres_idx u i hi
      unfold idxO at hgt
      rw [hi'] at hgt
      simp at hgt
      omega
  · exact hinv.wf.low_target
  · exact twf_idxO_inj adj n hinv.wf

lemma twf_lower_v (G' : List Nat) (st2 : TarjanSt) (v m : Nat)
    (hwf : TWF adj n G' st2) (hvG : v ∈ G')
    (hm_le : m ≤ st2.lowlinks v)
    (htarget : ∃ t ∈ st2.stack, idxO st2 t = m ∧
      Relation.ReflTransGen (stepAdj adj) v t) :
    TWF adj n G' { st2 with lowlinks := updFn st2.lowlinks v m } := by
  refine ⟨hwf.onStack_iff, hwf.disj, hwf.visited_iff, hwf.idx_lt,
    hwf.idx_inj, hwf.stack_sorted, hwf.stack_reach, ?_, ?_,
    hwf.sccs_correct, hwf.visited_lt, hwf.grays_sub, ?_,
    hwf.fin_explored, ?_, hwf.closed_sccs⟩
  · intro u hu
    by_cases huv : u = v
    · show updFn st2.lowlinks v m u ≤ idxO st2 u
      rw [huv, updFn_same]
      exact Nat.le_trans hm_le (hwf.low_le v (huv ▸ hu))
    · show updFn st2.lowlinks v m u ≤ idxO st2 u
      rw [updFn_other _ _ _ huv]
      exact hwf.low_le u hu
  · intro u hu
    by_cases huv : u = v
    · obtain ⟨t, ht, htm, hr⟩ := htarget
      refine ⟨t, ht, ?_, by rw [huv]; exact hr⟩
      show idxO st2 t = updFn st2.lowlinks v m u
      rw [huv, updFn_same]
      exact htm
    · obtain ⟨t, ht, htm, hr⟩ := hwf.low_target u hu
      refine ⟨t, ht, ?_, hr⟩
      show idxO st2 t = updFn st2.lowlinks v m u
      rw [updFn_other _ _ _ huv]
      exact htm
  · intro u hu hG
    have huv : u ≠ v := fun he => hG (he ▸ hvG)
    show updFn st2.lowlinks v m u < idxO st2 u
    rw [updFn_other _ _ _ huv]
    exact hwf.fin_low u hu hG
  · intro u hvis hG w hw hws
    have huv : u ≠ v := fun he => hG (he ▸ hvG)
    show updFn st2.lowlinks v m u ≤ idxO st2 w
    rw [updFn_other _ _ _ huv]
    exact hwf.back_low u hvis hG w hw hws

lemma scStep_inv (G : List Nat) (v : Nat) (st : TarjanSt) (fuel : Nat)
    (processed : List Nat) (st' : TarjanSt) (w : Nat)
    (hbnd : ∀ a b, b ∈ adj a → b < n)
    (hwf0 : TWF adj n G st) (hv : st.indices v = none)
    (hp4 : ∀ u ∈ st.stack, Relation.ReflTransGen (stepAdj adj) u v)
    (hadj : w ∈ adj v)
    (hinv : LInv adj n G v st fuel processed st')
    (IH : ∀ w' st₀ G₀, TPre adj n G₀ w' fuel st₀ →
      TWF adj n G₀ (strongconnect adj fuel w' st₀) ∧
      TPost adj w' st₀ (strongconnect adj fuel w' st₀)) :
    LInv adj n G v st fuel (processed ++ [w]) (scStep adj fuel v st' w) := by
  obtain ⟨N1, hsk1, hnew1⟩ := hinv.stack_ext
  have hvmem' : v ∈ st'.stack := by
    rw [hsk1]
    exact List.mem_append_right N1 (List.mem_cons_self _ _)
  have hidxOv' : idxO st' v = st.index := by
    unfold idxO
    rw [hinv.v_idx]
    rfl
  have hlow_le_v : st'.lowlinks v ≤ st.index := by
    have := hinv.wf.low_le v hvmem'
    rw [hidxOv'] at this
    exact this
  by_cases hw1 : st'.indices w = none
  · -- branch A: recursive call
    have hstep : scStep adj fuel v st' w =
        { strongconnect adj fuel w st' with
          lowlinks := updFn (strongconnect adj fuel w st').lowlinks v
            (Nat.min ((strongconnect adj fuel w st').lowlinks v)
              ((strongconnect adj fuel w st').lowlinks w)) } := by
      simp [scStep, hw1]
    rw [hstep]
    have hpre : TPre adj n (v :: G) w fuel st' := by
      refine ⟨hinv.wf, hw1, hbnd v w hadj, ?_, hinv.unvis⟩
      intro u hu
      exact (LInv_reach_v adj n G v st fuel processed st' hwf0 hp4 hinv u hu).tail hadj
    obtain ⟨hwf'', post⟩ := IH w st' (v :: G) hpre
    obtain ⟨N2, hsk2, hnew2⟩ := post.stack_ext
    have hvidx'' : (strongconnect adj fuel w st').indices v = some st.index :=
      post.pres_idx v st.index hinv.v_idx
    have hvlow'' : (strongconnect adj fuel w st').lowlinks v = st'.lowlinks v :=
      post.low_pres v (by rw [hinv.v_idx]; rfl)
    have hvmem'' : v ∈ (strongconnect adj fuel w st').stack := by
      rw [hsk2]
      exact List.mem_append_right N2 hvmem'
    have hwidx'' : (strongconnect adj fuel w st').indices w = some st'.index :=
      post.v_visited
    have hidx'lt : st.index < st'.index := hinv.index_mono
    have hold_stack : ∀ u, u ∈ (strongconnect adj fuel w st').stack →
        (st'.indices u).isSome = true → u ∈ st'.stack := by
      intro u hu hvis
      rw [hsk2] at hu
      rcases List.mem_append.mp hu with hN | hs
      · exfalso
        rw [hnew2 u hN] at hvis
        cases hvis
      · exact hs
    have hidxO_pres : ∀ u, (st'.indices u).isSome = true →
        idxO (strongconnect adj fuel w st') u = idxO st' u := by
      intro u hvis
      rcases Option.isSome_iff_exists.mp hvis with ⟨i, hi⟩
      unfold idxO
      rw [hi, post.pres_idx u i hi]
    refine ⟨?wf, ?pres, ?imono, ?sccse, ?stke, ?vidx, ?lowp, ?nidx, ?vsrc,
      ?prp, ?expl, ?vtgt, ?unv⟩
    case wf =>
      apply twf_lower_v adj n (v :: G) _ v _ hwf''
        (List.mem_cons_self _ _) (Nat.min_le_left _ _)
      by_cases hc : (strongconnect adj fuel w st').lowlinks v ≤
          (strongconnect adj fuel w st').lowlinks w
      · obtain ⟨t, ht, htm, hr⟩ := hwf''.low_target v hvmem''
        refine ⟨t, ht, ?_, hr⟩
        rw [Nat.min_eq_left hc]
        exact htm
      · have hlt := Nat.lt_of_not_le hc
        rcases post.dichotomy with ⟨_, hloww, _, _⟩ | ⟨hwstk, _⟩
        · exfalso
          rw [hloww, hvlow''] at hlt
          omega
        · obtain ⟨t, ht, htm, hr⟩ := hwf''.low_target w hwstk
          refine ⟨t, ht, ?_, (Relation.ReflTransGen.single
            (show stepAdj adj v w from hadj)).trans hr⟩
          rw [Nat.min_eq_right (Nat.le_of_lt hlt)]
          exact htm
    case pres =>
      intro u i h
      exact post.pres_idx u i (hinv.pres_idx u i h)
    case imono =>
      show st.index + 1 ≤ (strongconnect adj fuel w st').index
      have h1 := post.index_mono
      have h2 := hinv.index_mono
      omega
    case sccse =>
      obtain ⟨L1, hL1⟩ := hinv.sccs_ext
      obtain ⟨L2, hL2⟩ := post.sccs_ext
      refine ⟨L1 ++ L2, ?_⟩
      show (strongconnect adj fuel w st').sccs = st.sccs ++ (L1 ++ L2)
      rw [hL2, hL1, List.append_assoc]
    case stke =>
      refine ⟨N2 ++ N1, ?_, ?_⟩
      · show (strongconnect adj fuel w st').stack = (N2 ++ N1) ++ v :: st.stack
        rw [hsk2, hsk1, List.append_assoc]
      · intro u hu
        rcases List.mem_append.mp hu with hN2 | hN1
        · constructor
          · cases hcase : st.indices u with
            | none => rfl
            | some i =>
              exfalso
              have := hinv.pres_idx u i hcase
              rw [hnew2 u hN2] at this
              cases this
          · intro he
            have := hnew2 u hN2
            rw [he, hinv.v_idx] at this
            cases this
        · exact hnew1 u hN1
    case vidx => exact hvidx''
    case lowp =>
      intro u hu
      have hune : u ≠ v := by
        intro he
        rw [he, hv] at hu
        cases hu
      have hu' : (st'.indices u).isSome = true := by
        rcases Option.isSome_iff_exists.mp hu with ⟨i, hi⟩
        rw [hinv.pres_idx u i hi]
        rfl
      show updFn (strongconnect adj fuel w st').lowlinks v _ u = st.lowlinks u
      rw [updFn_other _ _ _ hune, post.low_pres u hu', hinv.low_pres u hu]
    case nidx =>
      intro u i hsome hnone
      cases hcase : st'.indices u with
      | none =>
        have := post.new_idx_ge u i hsome hcase
        omega
      | some j =>
        have hj := post.pres_idx u j hcase
        have hij : i = j := by
          rw [hsome] at hj
          simpa using hj
        have := hinv.new_idx_ge u j hcase hnone
        omega
    case vsrc =>
      intro u hu
      rcases post.visited_src u hu with h1 | h2
      · rcases hinv.visited_src u h1 with ha | hb
        · exact Or.inl ha
        · exact Or.inr hb
      · exact Or.inr ((Relation.ReflTransGen.single
          (show stepAdj adj v w from hadj)).trans h2)
    case prp =>
      intro u hu hnone hne
      show updFn _ v _ v ≤ updFn _ v _ u
      rw [updFn_same, updFn_other _ _ _ hne]
      cases hcase : st'.indices u with
      | some j =>
        have humem' : u ∈ st'.stack :=
          hold_stack u hu (by rw [hcase]; rfl)
        have h1 := hinv.prop u humem' hnone hne
        have h2 : (strongconnect adj fuel w st').lowlinks u = st'.lowlinks u :=
          post.low_pres u (by rw [hcase]; rfl)
        rw [h2]
        exact Nat.le_trans (Nat.min_le_left _ _)
          (Nat.le_trans (Nat.le_of_eq hvlow'') h1)
      | none =>
        have h1 := post.prop_low u hu hcase
        exact Nat.le_trans (Nat.min_le_right _ _) h1
    case expl =>
      intro w' hw'
      rcases List.mem_append.mp hw' with hp | hsing
      · rcases Option.isSome_iff_exists.mp (hinv.explored w' hp) with ⟨i, hi⟩
        show ((strongconnect adj fuel w st').indices w').isSome = true
        rw [post.pres_idx w' i hi]
        rfl
      · have hw'w : w' = w := List.mem_singleton.mp hsing
        show ((strongconnect adj fuel w st').indices w').isSome = true
        rw [hw'w, hwidx'']
        rfl
    case vtgt =>
      intro w' hw' hstk
      show updFn _ v _ v ≤ idxO (strongconnect adj fuel w st') w'
      rw [updFn_same]
      rcases List.mem_append.mp hw' with hp | hsing
      · have hvis' := hinv.explored w' hp
        have humem' : w' ∈ st'.stack := hold_stack w' hstk hvis'
        have h1 := hinv.vtargets w' hp humem'
        have h2 := hidxO_pres w' hvis'
        rw [h2]
        exact Nat.le_trans (Nat.min_le_left _ _)
          (Nat.le_trans (Nat.le_of_eq hvlow'') h1)
      · have hw'w : w' = w := List.mem_singleton.mp hsing
        rw [hw'w] at hstk ⊢
        have h1 := hwf''.low_le w hstk
        exact Nat.le_trans (Nat.min_le_right _ _) h1
    case unv =>
      have h1 : unvisitedN n
          { strongconnect adj fuel w st' with
            lowlinks := updFn (strongconnect adj fuel w st').lowlinks v
              (Nat.min ((strongconnect adj fuel w st').lowlinks v)
                ((strongconnect adj fuel w st').lowlinks w)) } =
          unvisitedN n (strongconnect adj fuel w st') :=
        unvisitedN_congr n _ _ rfl
      have h2 := unvisited_mono n st' (strongconnect adj fuel w st') post.pres_idx
      have h3 := hinv.unvis
      omega
  · by_cases hw2 : st'.onStack w = true
    · -- branch B: back edge to a stack vertex
      have hstep : scStep adj fuel v st' w =
          { st' with
            lowlinks := updFn st'.lowlinks v
              (Nat.min (st'.lowlinks v) ((st'.indices w).getD 0)) } := by
        simp [scStep, hw1, hw2]
      rw [hstep]
      have hwmem : w ∈ st'.stack := (hinv.wf.onStack_iff w).mp hw2
      refine ⟨?wf, hinv.pres_idx, hinv.index_mono, hinv.sccs_ext,
        ⟨N1, hsk1, hnew1⟩, hinv.v_idx, ?lowp, hinv.new_idx_ge,
        hinv.visited_src, ?prp, ?expl, ?vtgt, hinv.unvis⟩
      case wf =>
        apply twf_lower_v adj n (v :: G) st' v _ hinv.wf
          (List.mem_cons_self _ _) (Nat.min_le_left _ _)
        by_cases hc : st'.lowlinks v ≤ (st'.indices w).getD 0
        · obtain ⟨t, ht, htm, hr⟩ := hinv.wf.low_target v hvmem'
          refine ⟨t, ht, ?_, hr⟩
          rw [Nat.min_eq_left hc]
          exact htm
        · refine ⟨w, hwmem, ?_, Relation.ReflTransGen.single
            (show stepAdj adj v w from hadj)⟩
          rw [Nat.min_eq_right (Nat.le_of_lt (Nat.lt_of_not_le hc))]
          rfl
      case lowp =>
        intro u hu
        have hune : u ≠ v := by
          intro he
          rw [he, hv] at hu
          cases hu
        show updFn st'.lowlinks v _ u = st.lowlinks u
        rw [updFn_other _ _ _ hune]
        exact hinv.low_pres u hu
      case prp =>
        intro u hu hnone hne
        show updFn st'.lowlinks v _ v ≤ updFn st'.lowlinks v _ u
        rw [updFn_same, updFn_other _ _ _ hne]
        exact Nat.le_trans (Nat.min_le_left _ _) (hinv.prop u hu hnone hne)
      case expl =>
        intro w' hw'
        rcases List.mem_append.mp hw' with hp | hsing
        · exact hinv.explored w' hp
        · have hw'w : w' = w := List.mem_singleton.mp hsing
          show (st'.indices w').isSome = true
          rw [hw'w]
          exact Option.ne_none_iff_isSome.mp hw1
      case vtgt =>
        intro w' hw' hstk
        show updFn st'.lowlinks v _ v ≤ idxO st' w'
        rw [updFn_same]
        rcases List.mem_append.mp hw' with hp | hsing
        · exact Nat.le_trans (Nat.min_le_left _ _) (hinv.vtargets w' hp hstk)
        · have hw'w : w' = w := List.mem_singleton.mp hsing
          rw [hw'w]
          exact Nat.min_le_right _ _
    · -- branch C: cross edge to a completed vertex
      have hstep : scStep adj fuel v st' w = st' := by
        simp [scStep, hw1, hw2]
      rw [hstep]
      refine ⟨hinv.wf, hinv.pres_idx, hinv.index_mono, hinv.sccs_ext,
        ⟨N1, hsk1, hnew1⟩, hinv.v_idx, hinv.low_pres, hinv.new_idx_ge,
        hinv.visited_src, hinv.prop, ?expl, ?vtgt, hinv.unvis⟩
      case expl =>
        intro w' hw'
        rcases List.mem_append.mp hw' with hp | hsing
        · exact hinv.explored w' hp
        · have hw'w : w' = w := List.mem_singleton.mp hsing
          rw [hw'w]
          exact Option.ne_none_iff_isSome.mp hw1
      case vtgt =>
        intro w' hw' hstk
        rcases List.mem_append.mp hw' with hp | hsing
        · exact hinv.vtargets w' hp hstk
        · exfalso
          have hw'w : w' = w := List.mem_singleton.mp hsing
          rw [hw'w] at hstk
          exact hw2 ((hinv.wf.onStack_iff w).mpr hstk)

lemma scFold_inv (G : List Nat) (v : Nat) (st : TarjanSt) (fuel : Nat)
    (hbnd : ∀ a b, b ∈ adj a → b < n)
    (hwf0 : TWF adj n G st) (hv : st.indices v = none)
    (hp4 : ∀ u ∈ st.stack, Relation.ReflTransGen (stepAdj adj) u v)
    (IH : ∀ w' st₀ G₀, TPre adj n G₀ w' fuel st₀ →
      TWF adj n G₀ (strongconnect adj fuel w' st₀) ∧
      TPost adj w' st₀ (strongconnect adj fuel w' st₀)) :
    ∀ (rest processed : List Nat) (st' : TarjanSt),
      adj v = processed ++ rest →
      LInv adj n G v st fuel processed st' →
      LInv adj n G v st fuel (adj v)
        (rest.foldl (scStep adj fuel v) st') := by
  intro rest
  induction rest with
  | nil =>
    intro processed st' happ hinv
    have hpe : processed = adj v := by
      rw [happ, List.append_nil]
    rw [List.foldl_nil, ← hpe]
    exact hinv
  | cons w rest ih =>
    intro processed st' happ hinv
    have hadj : w ∈ adj v := by
      rw [happ]
      exact List.mem_append_right processed (List.mem_cons_self w rest)
    have happ' : adj v = (processed ++ [w]) ++ rest := by
      rw [happ, List.append_assoc]
      rfl
    rw [List.foldl_cons]
    exact ih (processed ++ [w]) (scStep adj fuel v st' w) happ'
      (scStep_inv adj n G v st fuel processed st' w hbnd hwf0 hv hp4 hadj hinv IH)

lemma flat_closed {G' : List Nat} {stF : TarjanSt} (hwf : TWF adj n G' stF) :
    ∀ x ∈ flatSccs stF, ∀ y, Relation.ReflTransGen (stepAdj adj) x y →
      y ∈ flatSccs stF := by
  intro x hx y hr
  induction hr with
  | refl => exact hx
  | tail hab hbc ih => exact hwf.closed_sccs _ ih _ hbc

lemma scClose_spec (G : List Nat) (v : Nat) (st : TarjanSt) (fuel : Nat)
    (stF : TarjanSt)
    (hwf0 : TWF adj n G st) (hv : st.indices v = none)
    (hp4 : ∀ u ∈ st.stack, Relation.ReflTransGen (stepAdj adj) u v)
    (hinv : LInv adj n G v st fuel (adj v) stF) :
    TWF adj n G (scClose v stF) ∧ TPost adj v st (scClose v stF) := by
  obtain ⟨NEW, hstk, hnew⟩ := hinv.stack_ext
  have hvNEW : v ∉ NEW := fun h => (hnew v h).2 rfl
  have hvmemF : v ∈ stF.stack := by
    rw [hstk]
    exact List.mem_append_right NEW (List.mem_cons_self _ _)
  have hidxOvF : idxO stF v = st.index := by
    unfold idxO
    rw [hinv.v_idx]
    rfl
  have hgetD : (stF.indices v).getD 0 = st.index := by
    rw [hinv.v_idx]
    rfl
  have hlow_le : stF.lowlinks v ≤ st.index := by
    have := hinv.wf.low_le v hvmemF
    rw [hidxOvF] at this
    exact this
  have hreachv : ∀ u ∈ stF.stack, Relation.ReflTransGen (stepAdj adj) u v :=
    LInv_reach_v adj n G v st fuel (adj v) stF hwf0 hp4 hinv
  have hold_st_idx : ∀ u ∈ st.stack,
      idxO stF u = idxO st u ∧ idxO st u < st.index := by
    intro u hu
    rcases Option.isSome_iff_exists.mp (twf_stack_visited adj n hwf0 u hu) with ⟨i, hi⟩
    have h1 := hinv.pres_idx u i hi
    have h2 := hwf0.idx_lt u i hi
    constructor
    · unfold idxO
      rw [hi, h1]
    · unfold idxO
      rw [hi]
      simpa using h2
  have hstack_mem_cases : ∀ u, u ∈ stF.stack →
      u ∈ NEW ∨ u = v ∨ u ∈ st.stack := by
    intro u hu
    rw [hstk] at hu
    rcases List.mem_append.mp hu with h | h
    · exact Or.inl h
    · rcases List.mem_cons.mp h with h | h
      · exact Or.inr (Or.inl h)
      · exact Or.inr (Or.inr h)
  by_cases hroot : stF.lowlinks v = (stF.indices v).getD 0
  case neg =>
    -- non-root exit: the stack is left alone
    have hC : scClose v stF = stF := by
      simp only [scClose, if_neg hroot]
    rw [hC]
    have hlowlt : stF.lowlinks v < st.index := by
      rw [hgetD] at hroot
      omega
    constructor
    · refine ⟨hinv.wf.onStack_iff, hinv.wf.disj, hinv.wf.visited_iff,
        hinv.wf.idx_lt, hinv.wf.idx_inj, hinv.wf.stack_sorted,
        hinv.wf.stack_reach, hinv.wf.low_le, hinv.wf.low_target,
        hinv.wf.sccs_correct, hinv.wf.visited_lt, ?_, ?_, ?_, ?_,
        hinv.wf.closed_sccs⟩
      · exact fun g hg => hinv.wf.grays_sub g (List.mem_cons_of_mem v hg)
      · intro u hu hG
        by_cases huv : u = v
        · rw [huv, hidxOvF]
          exact hlowlt
        · refine hinv.wf.fin_low u hu ?_
          intro hm
          rcases List.mem_cons.mp hm with he | hg
          · exact huv he
          · exact hG hg
      · intro u hvis hG w hw
        by_cases huv : u = v
        · rw [huv] at hw
          exact hinv.explored w hw
        · refine hinv.wf.fin_explored u hvis ?_ w hw
          intro hm
          rcases List.mem_cons.mp hm with he | hg
          · exact huv he
          · exact hG hg
      · intro u hvis hG w hw hws
        by_cases huv : u = v
        · rw [huv]
          rw [huv] at hw
          exact hinv.vtargets w hw hws
        · refine hinv.wf.back_low u hvis ?_ w hw hws
          intro hm
          rcases List.mem_cons.mp hm with he | hg
          · exact huv he
          · exact hG hg
    · refine ⟨hinv.pres_idx, ?_, hinv.sccs_ext, ?_, hinv.v_idx,
        hinv.visited_src, hinv.low_pres, hinv.new_idx_ge, ?_, ?_⟩
      · have := hinv.index_mono
        omega
      · refine ⟨NEW ++ [v], ?_, ?_⟩
        · rw [hstk, List.append_assoc]
          rfl
        · intro u hu
          rcases List.mem_append.mp hu with h | h
          · exact (hnew u h).1
          · rw [List.mem_singleton.mp h]
            exact hv
      · intro u hu hnone
        by_cases huv : u = v
        · rw [huv]
        · exact hinv.prop u hu hnone huv
      · exact Or.inr ⟨hvmemF, hlowlt⟩
  case pos =>
    -- root exit: pop the new vertices plus `v` as a completed SCC
    have hrooti : stF.lowlinks v = st.index := by
      rw [hroot, hgetD]
    have hpop : popUntil v stF.stack = (NEW ++ [v], st.stack) := by
      rw [hstk]
      exact popUntil_split v NEW st.stack hvNEW
    have hC : scClose v stF =
        { stF with
          stack := st.stack,
          onStack := (NEW ++ [v]).foldl (fun f w => updFn f w false) stF.onStack,
          sccs := stF.sccs ++ [NEW ++ [v]] } := by
      simp only [scClose, if_pos hroot, hpop]
    rw [hC]
    have hflat_eq : flatSccs
        { stF with
          stack := st.stack,
          onStack := (NEW ++ [v]).foldl (fun f w => updFn f w false) stF.onStack,
          sccs := stF.sccs ++ [NEW ++ [v]] } =
        flatSccs stF ++ (NEW ++ [v]) := by
      simp [flatSccs]
    have hnew_idx_ge : ∀ u ∈ NEW, st.index ≤ idxO stF u := by
      intro u hu
      have humem : u ∈ stF.stack := by
        rw [hstk]
        exact List.mem_append_left _ hu
      rcases Option.isSome_iff_exists.mp
        (twf_stack_visited adj n hinv.wf u humem) with ⟨i, hi⟩
      have := hinv.new_idx_ge u i hi (hnew u hu).1
      unfold idxO
      rw [hi]
      simpa using this
    have hGOOD_step : ∀ u, (stF.indices u).isSome = true →
        (u ∈ flatSccs stF ∨ (u ∈ stF.stack ∧ st.index ≤ idxO stF u)) →
        ∀ w ∈ adj u, (stF.indices w).isSome = true ∧
          (w ∈ flatSccs stF ∨ (w ∈ stF.stack ∧ st.index ≤ idxO stF w)) := by
      intro u hvis hcase w hw
      rcases hcase with hflat | ⟨hstku, hgeu⟩
      · have hwflat := hinv.wf.closed_sccs u hflat w hw
        exact ⟨twf_flat_visited adj n hinv.wf w hwflat, Or.inl hwflat⟩
      · by_cases huv : u = v
        · rw [huv] at hw
          have hwvis : (stF.indices w).isSome = true := hinv.explored w hw
          refine ⟨hwvis, ?_⟩
          rcases (hinv.wf.visited_iff w).mp hwvis with hf | hs
          · exact Or.inl hf
          · refine Or.inr ⟨hs, ?_⟩
            have := hinv.vtargets w hw hs
            rw [hrooti] at this
            exact this
        · have huNEW : u ∈ NEW := by
            rcases hstack_mem_cases u hstku with h1 | h2 | h3
            · exact h1
            · exact absurd h2 huv
            · exfalso
              obtain ⟨he, hlt⟩ := hold_st_idx u h3
              rw [he] at hgeu
              omega
          have hnone : st.indices u = none := (hnew u huNEW).1
          have hunotvG : u ∉ v :: G := by
            intro hm
            rcases List.mem_cons.mp hm with he | hg
            · exact huv he
            · have := twf_stack_visited adj n hwf0 u (hwf0.grays_sub u hg)
              rw [hnone] at this
              cases this
          have hwvis := hinv.wf.fin_explored u hvis hunotvG w hw
          refine ⟨hwvis, ?_⟩
          rcases (hinv.wf.visited_iff w).mp hwvis with hf | hs
          · exact Or.inl hf
          · refine Or.inr ⟨hs, ?_⟩
            have hbl := hinv.wf.back_low u hvis hunotvG w hw hs
            have hpr := hinv.prop u hstku hnone huv
            rw [hrooti] at hpr
            omega
    have hGOOD : ∀ x, Relation.ReflTransGen (stepAdj adj) v x →
        (stF.indices x).isSome = true ∧
        (x ∈ flatSccs stF ∨ (x ∈ stF.stack ∧ st.index ≤ idxO stF x)) := by
      intro x hx
      induction hx with
      | refl =>
        refine ⟨by rw [hinv.v_idx]; rfl, Or.inr ⟨hvmemF, ?_⟩⟩
        rw [hidxOvF]
      | tail hab hbc ih => exact hGOOD_step _ ih.1 ih.2 _ hbc
    have hS_sub_stack : ∀ u ∈ NEW ++ [v], u ∈ stF.stack := by
      intro u hu
      rcases List.mem_append.mp hu with h | h
      · rw [hstk]
        exact List.mem_append_left _ h
      · rw [List.mem_singleton.mp h]
        exact hvmemF
    have hreach_v_S : ∀ u ∈ NEW ++ [v],
        Relation.ReflTransGen (stepAdj adj) v u := by
      intro u hu
      rcases List.mem_append.mp hu with h | h
      · refine hinv.wf.stack_reach v hvmemF u (hS_sub_stack u hu) ?_
        rw [hidxOvF]
        exact hnew_idx_ge u h
      · rw [List.mem_singleton.mp h]
    have hS_iff : ∀ x, x ∈ NEW ++ [v] ↔
        (Relation.ReflTransGen (stepAdj adj) v x ∧
          Relation.ReflTransGen (stepAdj adj) x v) := by
      intro x
      constructor
      · intro hx
        exact ⟨hreach_v_S x hx, hreachv x (hS_sub_stack x hx)⟩
      · rintro ⟨hvx, hxv⟩
        obtain ⟨hvis, hc⟩ := hGOOD x hvx
        rcases hc with hf | ⟨hstkx, hge⟩
        · exfalso
          have hvflat := flat_closed adj n hinv.wf x hf v hxv
          exact twf_stack_not_flat adj n hinv.wf v hvmemF hvflat
        · rcases hstack_mem_cases x hstkx with h1 | h2 | h3
          · exact List.mem_append_left _ h1
          · rw [h2]
            exact List.mem_append_right _ (List.mem_singleton.mpr rfl)
          · exfalso
            obtain ⟨he, hlt⟩ := hold_st_idx x h3
            rw [he] at hge
            omega
    have hGOOD_of_S : ∀ u ∈ NEW ++ [v], (stF.indices u).isSome = true ∧
        (u ∈ flatSccs stF ∨ (u ∈ stF.stack ∧ st.index ≤ idxO stF u)) := by
      intro u hu
      refine ⟨twf_stack_visited adj n hinv.wf u (hS_sub_stack u hu), Or.inr
        ⟨hS_sub_stack u hu, ?_⟩⟩
      rcases List.mem_append.mp hu with h | h
      · exact hnew_idx_ge u h
      · rw [List.mem_singleton.mp h, hidxOvF]
    have hndS : ((NEW ++ [v]) ++ st.stack).Nodup := by
      have hd : stF.stack.Nodup := hinv.wf.disj.of_append_right
      rw [hstk] at hd
      rw [List.append_assoc]
      simpa using hd
    have hsub : st.stack.Sublist stF.stack := by
      rw [hstk]
      exact (List.sublist_cons_self v st.stack).trans
        (List.sublist_append_right NEW (v :: st.stack))
    have hmem_lift : ∀ u ∈ st.stack, u ∈ stF.stack := fun u hu => hsub.mem hu
    constructor
    · refine ⟨?_, ?_, ?_, hinv.wf.idx_lt, hinv.wf.idx_inj, ?_, ?_, ?_, ?_,
        ?_, hinv.wf.visited_lt, ?_, ?_, ?_, ?_, ?_⟩
      · -- onStack_iff
        intro u
        show ((NEW ++ [v]).foldl (fun f w => updFn f w false) stF.onStack) u
          = true ↔ u ∈ st.stack
        rw [foldl_updFn_false]
        by_cases hu : u ∈ NEW ++ [v]
        · rw [if_pos hu]
          constructor
          · intro h
            cases h
          · intro h
            exact absurd h (fun hst =>
              (List.disjoint_of_nodup_append hndS) hu hst)
        · rw [if_neg hu, hinv.wf.onStack_iff u]
          constructor
          · intro h
            rcases hstack_mem_cases u h with h1 | h2 | h3
            · exact absurd (List.mem_append_left [v] h1) hu
            · exact absurd (List.mem_append_right NEW
                (List.mem_singleton.mpr h2)) hu
            · exact h3
          · exact hmem_lift u
      · -- disj
        show (flatSccs _ ++ st.stack).Nodup
        rw [hflat_eq]
        have hd := hinv.wf.disj
        rw [hstk] at hd
        rw [List.append_assoc, List.append_assoc]
        simpa using hd
      · -- visited_iff
        intro u
        show (stF.indices u).isSome = true ↔ _
        rw [hinv.wf.visited_iff u, hflat_eq, hstk]
        simp only [List.mem_append, List.mem_cons, List.mem_singleton]
        tauto
      · -- stack_sorted
        exact List.Pairwise.sublist hsub hinv.wf.stack_sorted
      · -- stack_reach
        intro u hu w hw hle
        exact hinv.wf.stack_reach u (hmem_lift u hu) w (hmem_lift w hw) hle
      · -- low_le
        intro u hu
        exact hinv.wf.low_le u (hmem_lift u hu)
      · -- low_target
        intro u hu
        obtain ⟨t, ht, htm, hr⟩ := hwf0.low_target u hu
        refine ⟨t, ht, ?_, hr⟩
        show idxO stF t = stF.lowlinks u
        rw [(hold_st_idx t ht).1,
          hinv.low_pres u (twf_stack_visited adj n hwf0 u hu)]
        exact htm
      · -- sccs_correct
        intro S' hS' v' hv' w
        rcases List.mem_append.mp hS' with hold | hnewS
        · exact hinv.wf.sccs_correct S' hold v' hv' w
        · have hSe : S' = NEW ++ [v] := List.mem_singleton.mp hnewS
          rw [hSe] at hv' ⊢
          obtain ⟨hvv', hv'v⟩ := (hS_iff v').mp hv'
          constructor
          · intro hwS
            obtain ⟨hvw, hwv⟩ := (hS_iff w).mp hwS
            exact ⟨hv'v.trans hvw, hwv.trans hvv'⟩
          · rintro ⟨h1, h2⟩
            exact (hS_iff w).mpr ⟨hvv'.trans h1, h2.trans hv'v⟩
      · -- grays_sub
        exact hwf0.grays_sub
      · -- fin_low
        intro u hu hG
        show stF.lowlinks u < idxO stF u
        rw [hinv.low_pres u (twf_stack_visited adj n hwf0 u hu),
          (hold_st_idx u hu).1]
        exact hwf0.fin_low u hu hG
      · -- fin_explored
        intro u hvis hG w hw
        show (stF.indices w).isSome = true
        cases hcs : st.indices u with
        | some i =>
          have hstvis : (st.indices u).isSome = true := by
            rw [hcs]
            rfl
          have := hwf0.fin_explored u hstvis hG w hw
          rcases Option.isSome_iff_exists.mp this with ⟨j, hj⟩
          rw [hinv.pres_idx w j hj]
          rfl
        | none =>
          by_cases huv : u = v
          · rw [huv] at hw
            exact hinv.explored w hw
          · refine hinv.wf.fin_explored u hvis ?_ w hw
            intro hm
            rcases List.mem_cons.mp hm with he | hg
            · exact huv he
            · have := twf_stack_visited adj n hwf0 u (hwf0.grays_sub u hg)
              rw [hcs] at this
              cases this
      · -- back_low
        intro u hvis hG w hw hws
        show stF.lowlinks u ≤ idxO stF w
        cases hcs : st.indices u with
        | some i =>
          have hstvis : (st.indices u).isSome = true := by
            rw [hcs]
            rfl
          rw [hinv.low_pres u hstvis, (hold_st_idx w hws).1]
          exact hwf0.back_low u hstvis hG w hw hws
        | none =>
          by_cases huv : u = v
          · rw [huv]
            rw [huv] at hw
            exact hinv.vtargets w hw (hmem_lift w hws)
          · refine hinv.wf.back_low u hvis ?_ w hw (hmem_lift w hws)
            intro hm
            rcases List.mem_cons.mp hm with he | hg
            · exact huv he
            · have := twf_stack_visited adj n hwf0 u (hwf0.grays_sub u hg)
              rw [hcs] at this
              cases this
      · -- closed_sccs
        intro u hu w hw
        rw [hflat_eq] at hu ⊢
        rcases List.mem_append.mp hu with hold | hS
        · exact List.mem_append_left _ (hinv.wf.closed_sccs u hold w hw)
        · obtain ⟨huvis, hucase⟩ := hGOOD_of_S u hS
          obtain ⟨hwvis, hwcase⟩ := hGOOD_step u huvis hucase w hw
          rcases hwcase with hf | ⟨hstkw, hgew⟩
          · exact List.mem_append_left _ hf
          · refine List.mem_append_right _ ?_
            rcases hstack_mem_cases w hstkw with h1 | h2 | h3
            · exact List.mem_append_left _ h1
            · rw [h2]
              exact List.mem_append_right _ (List.mem_singleton.mpr rfl)
            · exfalso
              obtain ⟨he, hlt⟩ := hold_st_idx w h3
              rw [he] at hgew
              omega
    · refine ⟨hinv.pres_idx, ?_, ?_, ?_, hinv.v_idx, hinv.visited_src,
        hinv.low_pres, hinv.new_idx_ge, ?_, ?_⟩
      · show st.index ≤ stF.index
        have := hinv.index_mono
        omega
      · obtain ⟨L1, hL1⟩ := hinv.sccs_ext
        refine ⟨L1 ++ [NEW ++ [v]], ?_⟩
        show stF.sccs ++ [NEW ++ [v]] = st.sccs ++ (L1 ++ [NEW ++ [v]])
        rw [hL1, List.append_assoc]
      · refine ⟨[], ?_, fun u h => absurd h (List.not_mem_nil u)⟩
        show st.stack = [] ++ st.stack
        rw [List.nil_append]
      · intro u hu hnone
        exfalso
        have := twf_stack_visited adj n hwf0 u hu
        rw [hnone] at this
        cases this
      · refine Or.inl ⟨rfl, hrooti, ?_, fun u h => (hGOOD u h).1⟩
        rw [hflat_eq]
        exact List.mem_append_right _
          (List.mem_append_right _ (List.mem_singleton.mpr rfl))

lemma strongconnect_spec (hbnd : ∀ a b, b ∈ adj a → b < n) :
    ∀ fuel v st G, TPre adj n G v fuel st →
      TWF adj n G (strongconnect adj fuel v st) ∧
      TPost adj v st (strongconnect adj fuel v st) := by
  intro fuel
  induction fuel with
  | zero =>
    intro v st G hpre
    exfalso
    obtain ⟨hwf, hvnone, hvn, hp4, hfuel⟩ := hpre
    have := unvisited_pos n st v hvnone hvn
    omega
  | succ fuel ih =>
    intro v st G hpre
    obtain ⟨hwf, hvnone, hvn, hp4, hfuel⟩ := hpre
    rw [strongconnect_succ]
    have hinit := LInv_init adj n G v st fuel hwf hvnone hvn hp4 hfuel
    have hfold := scFold_inv adj n G v st fuel hbnd hwf hvnone hp4
      (fun w' st₀ G₀ hp => ih w' st₀ G₀ hp)
      (adj v) [] (scPush v st) rfl hinit
    exact scClose_spec adj n G v st fuel _ hwf hvnone hp4 hfold

lemma unvisitedN_le (st : TarjanSt) : unvisitedN n st ≤ n := by
  unfold unvisitedN
  have := List.length_filter_le (fun u => !(st.indices u).isSome) (List.range n)
  rw [List.length_range] at this
  exact this

lemma tarjan_loop_inv (hbnd : ∀ a b, b ∈ adj a → b < n) :
    ∀ (todo : List Nat) (st : TarjanSt),
      (∀ x ∈ todo, x < n) →
      TWF adj n [] st → st.stack = [] →
      TWF adj n []
          (todo.foldl (fun s x =>
            if s.indices x = none then strongconnect adj n x s else s) st) ∧
        (todo.foldl (fun s x =>
            if s.indices x = none then strongconnect adj n x s else s) st).stack
          = [] ∧
        (∀ u, (st.indices u).isSome = true →
          ((todo.foldl (fun s x =>
            if s.indices x = none then strongconnect adj n x s else s)
              st).indices u).isSome = true) ∧
        (∀ u ∈ todo,
          ((todo.foldl (fun s x =>
            if s.indices x = none then strongconnect adj n x s else s)
              st).indices u).isSome = true) := by
  intro todo
  induction todo with
  | nil =>
    intro st _ hwf hstk
    refine ⟨hwf, hstk, fun u hu => hu, fun u hu => absurd hu (List.not_mem_nil u)⟩
  | cons x todo ih =>
    intro st htodo hwf hstk
    have hxn : x < n := htodo x (List.mem_cons_self _ _)
    have htodo' : ∀ y ∈ todo, y < n :=
      fun y hy => htodo y (List.mem_cons_of_mem x hy)
    rw [List.foldl_cons]
    by_cases hx : st.indices x = none
    · rw [if_pos hx]
      have hpre : TPre adj n [] x n st := by
        refine ⟨hwf, hx, hxn, ?_, unvisitedN_le n st⟩
        rw [hstk]
        intro u hu
        exact absurd hu (List.not_mem_nil u)
      obtain ⟨hwf', post⟩ := strongconnect_spec adj n hbnd n x st [] hpre
      have hstk' : (strongconnect adj n x st).stack = [] := by
        rcases post.dichotomy with ⟨hse, _, _, _⟩ | ⟨hvstk, hlowlt⟩
        · rw [hse, hstk]
        · exfalso
          obtain ⟨t, ht, htm, _⟩ := hwf'.low_target x hvstk
          obtain ⟨NEW, hsk, hnw⟩ := post.stack_ext
          rw [hstk, List.append_nil] at hsk
          have htnone := hnw t (by rw [← hsk]; exact ht)
          rcases Option.isSome_iff_exists.mp
            (twf_stack_visited adj n hwf' t ht) with ⟨i, hi⟩
          have hge := post.new_idx_ge t i hi htnone
          unfold idxO at htm
          rw [hi] at htm
          simp at htm
          omega
      obtain ⟨ha, hb, hc, hd⟩ := ih (strongconnect adj n x st) htodo' hwf' hstk'
      refine ⟨ha, hb, ?_, ?_⟩
      · intro u hu
        rcases Option.isSome_iff_exists.mp hu with ⟨i, hi⟩
        exact hc u (by rw [post.pres_idx u i hi]; rfl)
      · intro u hu
        rcases List.mem_cons.mp hu with he | hm
        · rw [he]
          exact hc x (by rw [post.v_visited]; rfl)
        · exact hd u hm
    · rw [if_neg hx]
      obtain ⟨ha, hb, hc, hd⟩ := ih st htodo' hwf hstk
      refine ⟨ha, hb, hc, ?_⟩
      intro u hu
      rcases List.mem_cons.mp hu with he | hm
      · rw [he]
        exact hc x (Option.ne_none_iff_isSome.mp hx)
      · exact hd u hm

end TarjanProof2

lemma exists_ne_of_one_lt_length (S : List Nat) (u : Nat) (hlen : 1 < S.length)
    (hnd : S.Nodup) (hu : u ∈ S) : ∃ w ∈ S, w ≠ u := by
  match S, hlen with
  | x :: y :: t, _ =>
    by_cases hux : u = x
    · refine ⟨y, List.mem_cons_of_mem x (List.mem_cons_self y t), ?_⟩
      intro he
      rw [List.nodup_cons] at hnd
      apply hnd.1
      rw [he, hux]
      exact List.mem_cons_self _ _
    · exact ⟨x, List.mem_cons_self _ _, fun he => hux he.symm⟩

lemma one_lt_length_of_mem_ne (S : List Nat) (u w : Nat) (hu : u ∈ S)
    (hw : w ∈ S) (hne : w ≠ u) : 1 < S.length := by
  match S with
  | [] => exact absurd hu (List.not_mem_nil u)
  | [a] =>
    exfalso
    rw [List.mem_singleton.mp hu] at hne
    rw [List.mem_singleton.mp hw] at hne
    exact hne rfl
  | x :: y :: t => simp

/-- The claim's `blocks`-graph edge relation: an edge runs from `x` to `y`
when some record with id `x` lists `y` in `blocks` and `y` is among the
input node ids. -/
def specBlocksRel (beads : List BeadNode) (x y : String) : Prop :=
  y ∈ beadIds beads ∧ ∃ b ∈ beads, b.id = x ∧ y ∈ b.blocks

lemma blocksPairs_fst (beads : List BeadNode) :
    (blocksPairs beads).map Prod.fst = beadIds beads := by
  simp [blocksPairs, beadIds]

lemma mem_cycleAdj (ps : List (String × List String)) (i j : Nat) :
    j ∈ cycleAdj ps i ↔ ∃ p ∈ ps,
      (idIndexMapGo (ps.map Prod.fst) 0).lookup p.1 = some i ∧
      ∃ b ∈ p.2, (idIndexMapGo (ps.map Prod.fst) 0).lookup b = some j := by
  unfold cycleAdj
  rw [List.mem_flatMap]
  constructor
  · rintro ⟨p, hp, hj⟩
    by_cases hc : (idIndexMapGo (ps.map Prod.fst) 0).lookup p.1 = some i
    · rw [if_pos hc] at hj
      rcases List.mem_filterMap.mp hj with ⟨b, hb, hbl⟩
      exact ⟨p, hp, hc, b, hb, hbl⟩
    · rw [if_neg hc] at hj
      exact absurd hj (List.not_mem_nil j)
  · rintro ⟨p, hp, hc, b, hb, hbl⟩
    refine ⟨p, hp, ?_⟩
    rw [if_pos hc]
    exact List.mem_filterMap.mpr ⟨b, hb, hbl⟩

lemma lookup_get_self (ids : List String) (s : String) (k : Nat)
    (h : (idIndexMapGo ids 0).lookup s = some k) : ids.get? k = some s := by
  rcases (idIndexMapGo_lookup_eq_some ids 0 s k).mp h with ⟨k', hk, hget, _⟩
  have hkk : k = k' := by omega
  rw [hkk]
  exact hget

lemma lookup_lt_length (ids : List String) (s : String) (k : Nat)
    (h : (idIndexMapGo ids 0).lookup s = some k) : k < ids.length := by
  have hget := lookup_get_self ids s k h
  by_contra hk
  rw [List.get?_eq_none.mpr (Nat.le_of_not_lt hk)] at hget
  cases hget

lemma cycleAdj_bnd (ps : List (String × List String)) :
    ∀ a b, b ∈ cycleAdj ps a → b < ps.length := by
  intro a b hb
  obtain ⟨p, hp, hlk, c, hc, hlkc⟩ := (mem_cycleAdj ps a b).mp hb
  have := lookup_lt_length (ps.map Prod.fst) c b hlkc
  rwa [List.length_map] at this

lemma get_lastIdx {ids : List String} {s : String} (hs : s ∈ ids) :
    ids.get? (lastIdx ids s) = some s :=
  lookup_get_self ids s (lastIdx ids s) (lookup_lastIdx hs)

lemma step_str_to_idx (beads : List BeadNode) (a b : String)
    (h : specBlocksRel beads a b) :
    stepAdj (cycleAdj (blocksPairs beads))
      (lastIdx ((blocksPairs beads).map Prod.fst) a)
      (lastIdx ((blocksPairs beads).map Prod.fst) b) := by
  obtain ⟨hbmem, bead, hbead, hbid, hblk⟩ := h
  have hamem : a ∈ (blocksPairs beads).map Prod.fst := by
    rw [blocksPairs_fst]
    exact List.mem_map.mpr ⟨bead, hbead, hbid⟩
  have hbmem' : b ∈ (blocksPairs beads).map Prod.fst := by
    rw [blocksPairs_fst]
    exact hbmem
  show lastIdx _ b ∈ cycleAdj (blocksPairs beads) (lastIdx _ a)
  apply (mem_cycleAdj _ _ _).mpr
  refine ⟨(bead.id, bead.blocks), List.mem_map.mpr ⟨bead, hbead, rfl⟩, ?_,
    b, hblk, lookup_lastIdx hbmem'⟩
  show (idIndexMapGo _ 0).lookup bead.id = some (lastIdx _ a)
  rw [hbid]
  exact lookup_lastIdx hamem

lemma reach_str_to_idx (beads : List BeadNode) (a b : String)
    (h : Relation.ReflTransGen (specBlocksRel beads) a b) :
    Relation.ReflTransGen (stepAdj (cycleAdj (blocksPairs beads)))
      (lastIdx ((blocksPairs beads).map Prod.fst) a)
      (lastIdx ((blocksPairs beads).map Prod.fst) b) := by
  induction h with
  | refl => exact Relation.ReflTransGen.refl
  | tail hac hcb ih => exact ih.tail (step_str_to_idx beads _ _ hcb)

lemma reach_idx_to_str (beads : List BeadNode) :
    ∀ i j, Relation.ReflTransGen (stepAdj (cycleAdj (blocksPairs beads))) i j →
    ∀ a, (idIndexMapGo ((blocksPairs beads).map Prod.fst) 0).lookup a = some i →
    ∃ b, (idIndexMapGo ((blocksPairs beads).map Prod.fst) 0).lookup b = some j ∧
      Relation.ReflTransGen (specBlocksRel beads) a b := by
  intro i j h
  induction h with
  | refl => exact fun a ha => ⟨a, ha, Relation.ReflTransGen.refl⟩
  | tail hm hstep ih =>
    intro a ha
    obtain ⟨c, hc, hrc⟩ := ih a ha
    obtain ⟨p, hp, hlkp, b', hb', hlkb'⟩ := (mem_cycleAdj _ _ _).mp hstep
    have hpc : p.1 = c := idIndexMap_lookup_inj _ hlkp hc
    obtain ⟨bead, hbead, hpe⟩ := List.mem_map.mp hp
    have hbid : bead.id = c := by
      rw [← hpc, ← hpe]
    have hblk : b' ∈ bead.blocks := by
      rw [← hpe] at hb'
      exact hb'
    have hbmem : b' ∈ beadIds beads := by
      have hmm : b' ∈ (blocksPairs beads).map Prod.fst :=
        (idIndexMapGo_lookup_isSome _ 0 b').mp (by rw [hlkb']; rfl)
      rwa [blocksPairs_fst] at hmm
    exact ⟨b', hlkb', hrc.tail ⟨hbmem, bead, hbead, hbid, hblk⟩⟩

lemma twf_empty (adj : Nat → List Nat) (n : Nat) :
    TWF adj n [] ⟨0, fun _ => none, fun _ => 0, fun _ => false, [], []⟩ := by
  refine ⟨?_, ?_, ?_, ?_, ?_, ?_, ?_, ?_, ?_, ?_, ?_, ?_, ?_, ?_, ?_, ?_⟩
  · intro u
    simp
  · simp [flatSccs]
  · intro u
    simp [flatSccs]
  · intro u i h
    cases h
  · intro u w i hu
    cases hu
  · exact List.Pairwise.nil
  · intro u hu
    exact absurd hu (List.not_mem_nil u)
  · intro u hu
    exact absurd hu (List.not_mem_nil u)
  · intro u hu
    exact absurd hu (List.not_mem_nil u)
  · intro S hS
    exact absurd hS (List.not_mem_nil S)
  · intro u h
    simp at h
  · intro g hg
    exact absurd hg (List.not_mem_nil g)
  · intro u hu
    exact absurd hu (List.not_mem_nil u)
  · intro u hu
    simp at hu
  · intro u hu
    simp at hu
  · intro u hu
    simp [flatSccs] at hu

lemma tarjanSccs_mem_iff (adj : Nat → List Nat) (n : Nat)
    (hbnd : ∀ a b, b ∈ adj a → b < n) (u : Nat) :
    (∃ S ∈ tarjanSccs n adj, u ∈ S ∧ 1 < S.length) ↔
    (u < n ∧ ∃ w, w ≠ u ∧ Relation.ReflTransGen (stepAdj adj) u w ∧
      Relation.ReflTransGen (stepAdj adj) w u) := by
  obtain ⟨hwfR, hstkR, hpres, hvisR⟩ := tarjan_loop_inv adj n hbnd (List.range n)
    ⟨0, fun _ => none, fun _ => 0, fun _ => false, [], []⟩
    (fun x hx => List.mem_range.mp hx) (twf_empty adj n) rfl
  have hts : tarjanSccs n adj =
      ((List.range n).foldl (fun s x =>
        if s.indices x = none then strongconnect adj n x s else s)
        ⟨0, fun _ => none, fun _ => 0, fun _ => false, [], []⟩).sccs := rfl
  have hflat_of_lt : ∀ x, x < n →
      x ∈ flatSccs ((List.range n).foldl (fun s x =>
        if s.indices x = none then strongconnect adj n x s else s)
        ⟨0, fun _ => none, fun _ => 0, fun _ => false, [], []⟩) := by
    intro x hx
    rcases (hwfR.visited_iff x).mp (hvisR x (List.mem_range.mpr hx)) with h | h
    · exact h
    · rw [hstkR] at h
      exact absurd h (List.not_mem_nil x)
  constructor
  · rintro ⟨S, hS, huS, hlen⟩
    rw [hts] at hS
    have huflat : u ∈ flatSccs ((List.range n).foldl (fun s x =>
        if s.indices x = none then strongconnect adj n x s else s)
        ⟨0, fun _ => none, fun _ => 0, fun _ => false, [], []⟩) := by
      unfold flatSccs
      exact List.mem_flatMap.mpr ⟨S, hS, huS⟩
    have hun : u < n :=
      hwfR.visited_lt u ((hwfR.visited_iff u).mpr (Or.inl huflat))
    have hSnd : S.Nodup := by
      obtain ⟨s, t, hst⟩ := List.append_of_mem hS
      have hnd := hwfR.disj.of_append_left
      have hfl : flatSccs ((List.range n).foldl (fun s x =>
          if s.indices x = none then strongconnect adj n x s else s)
          ⟨0, fun _ => none, fun _ => 0, fun _ => false, [], []⟩) =
          s.flatMap (fun S => S) ++ (S ++ t.flatMap (fun S => S)) := by
        unfold flatSccs
        rw [hst]
        simp
      rw [hfl] at hnd
      exact (hnd.of_append_right).of_append_left
    obtain ⟨w, hwS, hwne⟩ := exists_ne_of_one_lt_length S u hlen hSnd huS
    have hiff := hwfR.sccs_correct S hS u huS w
    exact ⟨hun, w, hwne, (hiff.mp hwS).1, (hiff.mp hwS).2⟩
  · rintro ⟨hun, w, hne, huw, hwu⟩
    obtain ⟨S, hS, huS⟩ := List.mem_flatMap.mp (hflat_of_lt u hun)
    have hwS : w ∈ S := (hwfR.sccs_correct S hS u huS w).mpr ⟨huw, hwu⟩
    refine ⟨S, ?_, huS, one_lt_length_of_mem_ne S u w huS hwS hne⟩
    rw [hts]
    exact hS

/-- C1: `cycle_participants` returns exactly the ids of the records that lie
in a strongly-connected component of size at least two of the graph whose
edges run from each record's id to every known id in its `blocks` list (a
vertex lies in such a component precisely when some other id is reachable
from it and reaches it back); in particular a record whose `blocks` lists
only its own id, belonging to no larger component, is absent from the
result. -/
theorem find_cycle_nodes_spec (beads : List BeadNode) (id : String) :
    id ∈ find_cycle_nodes_internal beads ↔
      (id ∈ beadIds beads ∧ ∃ j, j ≠ id ∧
        Relation.ReflTransGen (specBlocksRel beads) id j ∧
        Relation.ReflTransGen (specBlocksRel beads) j id) := by
  have hbnd := cycleAdj_bnd (blocksPairs beads)
  constructor
  · intro hmem
    unfold find_cycle_nodes_internal at hmem
    rw [List.mem_flatMap] at hmem
    obtain ⟨scc, hscc, hid⟩ := hmem
    rw [List.mem_filter] at hscc
    obtain ⟨hmemS, hlenb⟩ := hscc
    have hlen : 1 < scc.length := by simpa using hlenb
    obtain ⟨idx, hidxS, hget⟩ := List.mem_filterMap.mp hid
    obtain ⟨hidxn, w, hwne, hrw, hwr⟩ :=
      (tarjanSccs_mem_iff (cycleAdj (blocksPairs beads))
        (blocksPairs beads).length hbnd idx).mp ⟨scc, hmemS, hidxS, hlen⟩
    rcases Relation.ReflTransGen.cases_head hrw with he | ⟨x, hx, _⟩
    · exact absurd he.symm hwne
    obtain ⟨p, hp, hlkp, b0, hb0, hlkb0⟩ := (mem_cycleAdj _ _ _).mp hx
    have hgetp := lookup_get_self _ p.1 idx hlkp
    have hpid : p.1 = id := by
      rw [hget] at hgetp
      exact (Option.some.inj hgetp).symm
    have hlkid : (idIndexMapGo ((blocksPairs beads).map Prod.fst) 0).lookup id
        = some idx := by
      rw [← hpid]
      exact hlkp
    have hidmem : id ∈ beadIds beads := by
      have hmm : id ∈ (blocksPairs beads).map Prod.fst :=
        (idIndexMapGo_lookup_isSome _ 0 id).mp (by rw [hlkid]; rfl)
      rwa [blocksPairs_fst] at hmm
    rcases Relation.ReflTransGen.cases_head hwr with he | ⟨y, hy, _⟩
    · exact absurd he hwne
    obtain ⟨q, hq, hlkq, c0, hc0, hlkc0⟩ := (mem_cycleAdj _ _ _).mp hy
    have hjne : q.1 ≠ id := by
      intro he
      rw [he, hlkid] at hlkq
      exact hwne (Option.some.inj hlkq).symm
    obtain ⟨b1, hlkb1, hreach1⟩ := reach_idx_to_str beads idx w hrw id hlkid
    have hb1q : b1 = q.1 := idIndexMap_lookup_inj _ hlkb1 hlkq
    obtain ⟨b2, hlkb2, hreach2⟩ := reach_idx_to_str beads w idx hwr q.1 hlkq
    have hb2id : b2 = id := idIndexMap_lookup_inj _ hlkb2 hlkid
    refine ⟨hidmem, q.1, hjne, ?_, ?_⟩
    · rw [← hb1q]
      exact hreach1
    · rw [← hb2id]
      exact hreach2
  · rintro ⟨hidmem, j, hjne, h1, h2⟩
    have hidmem' : id ∈ (blocksPairs beads).map Prod.fst := by
      rw [blocksPairs_fst]
      exact hidmem
    have hjmem : j ∈ beadIds beads := by
      rcases Relation.ReflTransGen.cases_head h2 with he | ⟨x, hx, _⟩
      · exact absurd he hjne
      · obtain ⟨_, bead, hbead, hbid, _⟩ := hx
        rw [← hbid]
        exact List.mem_map.mpr ⟨bead, hbead, rfl⟩
    have hjmem' : j ∈ (blocksPairs beads).map Prod.fst := by
      rw [blocksPairs_fst]
      exact hjmem
    have hlkid := lookup_lastIdx hidmem'
    have hne_idx : lastIdx ((blocksPairs beads).map Prod.fst) j ≠
        lastIdx ((blocksPairs beads).map Prod.fst) id :=
      fun he => hjne (lastIdx_inj _ hjmem' hidmem' he)
    have hidxlt : lastIdx ((blocksPairs beads).map Prod.fst) id <
        (blocksPairs beads).length := by
      have := lookup_lt_length _ id _ hlkid
      rwa [List.length_map] at this
    obtain ⟨S, hS, hmemS, hlenS⟩ :=
      (tarjanSccs_mem_iff (cycleAdj (blocksPairs beads))
        (blocksPairs beads).length hbnd
        (lastIdx ((blocksPairs beads).map Prod.fst) id)).mpr
        ⟨hidxlt, lastIdx ((blocksPairs beads).map Prod.fst) j, hne_idx,
          reach_str_to_idx beads id j h1, reach_str_to_idx beads j id h2⟩
    unfold find_cycle_nodes_internal
    rw [List.mem_flatMap]
    refine ⟨S, List.mem_filter.mpr ⟨hS, by simpa using hlenS⟩,
      List.mem_filterMap.mpr
        ⟨lastIdx ((blocksPairs beads).map Prod.fst) id, hmemS,
          get_lastIdx hidmem'⟩⟩

/-- C4: `ready_nodes` returns, in input order, exactly the ids of the records
whose status is not `"closed"` and whose every `blocked_by` id is the id of
some input record with status exactly `"closed"` (so a blocker id matching no
input record makes the node not ready). -/
theorem getReadyBeads_eq_specReady (beads : List BeadNode) :
    getReadyBeads beads =
      (beads.filter (fun b => decide (specReady beads b))).map (fun b => b.id) := by
  unfold getReadyBeads
  rw [List.filter_filter]
  congr 1
  apply List.filter_congr
  intro b _
  exact readyFilter_eq_specReady beads b
